import Mathlib

/-!
# Verification of the text-fragment deep-linking core

Shallow embedding of `src/frontend/js/text-fragment-utils.js` (the canonical,
query-aware variant): `sanitizeFragment`, `cleanSnippet`, `extractKeywords`,
`extractTextFragment` and `buildTextFragmentUrl`, modelled as pure functions
over `List Char`, with JavaScript string/regex semantics (global non-overlapping
leftmost replacement, stable `Array.prototype.sort`, `split` producing empty
leading/trailing pieces) translated explicitly.
-/

/-- JavaScript's `\s` character class (WhiteSpace ∪ LineTerminator). -/
def isJsWS (c : Char) : Bool :=
  c = ' ' || c = '\t' || c = '\n' || c = '\r' || c = '\x0b' || c = '\x0c' ||
  c = ' ' || c = ' ' || (' ' ≤ c && c ≤ ' ') ||
  c = ' ' || c = ' ' || c = ' ' || c = ' ' ||
  c = '　' || c = '﻿'

/-- JavaScript LineTerminator characters (what `.` in a regex does NOT match,
and where a multiline `^` anchors). -/
def isLineTerm (c : Char) : Bool :=
  c = '\n' || c = '\r' || c = ' ' || c = ' '

/-- JavaScript's `\w` character class. -/
def isWordChar (c : Char) : Bool :=
  c.isAlphanum || c = '_'

/-- Sentence-terminal punctuation, the `[.!?]` class of the sentence split. -/
def isSentencePunct (c : Char) : Bool :=
  c = '.' || c = '!' || c = '?'

/-- `String.prototype.trim`: drop JS whitespace from both ends. -/
def trimList (l : List Char) : List Char :=
  ((l.dropWhile isJsWS).reverse.dropWhile isJsWS).reverse

/-- JS `string.split(regex)` where the regex matches one-or-more `sep`
characters: pieces between maximal separator runs, including an empty piece
before a leading run and after a trailing run (`"".split` gives `[""]`). -/
def splitRuns (sep : Char → Bool) : List Char → List Char → List (List Char)
  | acc, [] => [acc.reverse]
  | acc, a :: t =>
    if sep a then
      match t with
      | [] => [acc.reverse, []]
      | b :: t2 =>
        if sep b then splitRuns sep acc (b :: t2)
        else acc.reverse :: splitRuns sep [] (b :: t2)
    else splitRuns sep (a :: acc) t

/-- JS `string.split(/\s+/)`. -/
def splitWS (l : List Char) : List (List Char) :=
  splitRuns isJsWS [] l

/-- JS `array.join(' ')`. -/
def joinWords (ws : List (List Char)) : List Char :=
  List.intercalate [' '] ws

/-- JS `string.split('#')` (split at every occurrence of a single char). -/
def splitOnChar (sep : Char) : List Char → List (List Char)
  | [] => [[]]
  | c :: t =>
    if c = sep then [] :: splitOnChar sep t
    else
      match splitOnChar sep t with
      | [] => [[c]]
      | p :: ps => (c :: p) :: ps

/-! ## HTML character-reference decoding

The source decodes HTML entities by assigning to a scratch
`document.createElement('textarea').innerHTML` and reading back `.value`.
That decoder is the browser's, not code of this repository; the spec (§1, §9)
treats generic HTML-entity decoding as an assumed external capability.
Modelled from the spec: a character-reference decoder handling the common
named references and numeric (decimal and hex) references, each terminated by
a semicolon; all other text is passed through unchanged. -/

/-- Common named character references (without the `&` and `;`). -/
def namedEntities : List (List Char × Char) :=
  [("amp".data, '&'), ("lt".data, '<'), ("gt".data, '>'), ("quot".data, '"'),
   ("apos".data, '\''), ("nbsp".data, ' '), ("hellip".data, '…'),
   ("ldquo".data, '“'), ("rdquo".data, '”'),
   ("lsquo".data, '‘'), ("rsquo".data, '’')]

/-- Value of a hexadecimal digit. -/
def hexDigitVal (c : Char) : Nat :=
  if c.isDigit then c.toNat - '0'.toNat
  else if 'a' ≤ c ∧ c ≤ 'f' then c.toNat - 'a'.toNat + 10
  else if 'A' ≤ c ∧ c ≤ 'F' then c.toNat - 'A'.toNat + 10
  else 0

/-- Is `c` a digit in the given base (10 or 16)? -/
def isBaseDigit (base : Nat) (c : Char) : Bool :=
  if base = 16 then
    c.isDigit || ('a' ≤ c && c ≤ 'f') || ('A' ≤ c && c ≤ 'F')
  else c.isDigit

/-- Accumulate digit values in the given base. -/
def digitsToNat (base : Nat) (ds : List Char) : Nat :=
  ds.foldl (fun acc c => acc * base + hexDigitVal c) 0

/-- A numeric code point as a `Char`; invalid code points become U+FFFD, as
the HTML parser produces. -/
def charFromCode (n : Nat) : Char :=
  if n.isValidChar then Char.ofNat n else '�'

/-- Try to parse a numeric reference body: digit run then `;`.
Returns the decoded char and how many chars of the input were consumed. -/
def parseNumRef (base : Nat) (r : List Char) (already : Nat) : Option (Char × Nat) :=
  let ds := r.takeWhile (isBaseDigit base)
  if ds = [] then none
  else
    match r.drop ds.length with
    | ';' :: _ => some (charFromCode (digitsToNat base ds), already + ds.length + 1)
    | _ => none

/-- Try each named reference: `name;` must be a prefix of `t`. -/
def matchNamed : List (List Char × Char) → List Char → Option (Char × Nat)
  | [], _ => none
  | (name, c) :: rest, t =>
    if (name ++ [';']).isPrefixOf t then some (c, name.length + 1)
    else matchNamed rest t

/-- After an `&`, try to match one character reference; on success return the
decoded character and the number of characters consumed after the `&`. -/
def matchEntity (t : List Char) : Option (Char × Nat) :=
  match t with
  | '#' :: rest =>
    match rest with
    | 'x' :: r2 => parseNumRef 16 r2 2
    | 'X' :: r2 => parseNumRef 16 r2 2
    | _ => parseNumRef 10 rest 1
  | _ => matchNamed namedEntities t

/-- Decode character references; everything else passes through. One unit of
fuel is spent per scan step, so fuel `l.length` always suffices. -/
def decodeEntitiesGo : Nat → List Char → List Char
  | 0, l => l
  | _, [] => []
  | fuel + 1, '&' :: t =>
    match matchEntity t with
    | some (c, k) => c :: decodeEntitiesGo fuel (t.drop k)
    | none => '&' :: decodeEntitiesGo fuel t
  | fuel + 1, c :: t => c :: decodeEntitiesGo fuel t

/-- Decode character references; everything else passes through. -/
def decodeEntities (l : List Char) : List Char :=
  decodeEntitiesGo l.length l

/-! ## `sanitizeFragment` replacement stages (source lines 38–48) -/

/-- `.replace(/[<>]/g, '')`. -/
def removeAngles (l : List Char) : List Char :=
  l.filter (fun c => !(c = '<' || c = '>'))

/-- `.replace(/[""]/g, '"')` — in the source, the character class holds two
plain ASCII double quotes, so this maps `"` to `"`. -/
def normalizeQuotes (l : List Char) : List Char :=
  l.map (fun c => if c = '"' then '"' else c)

/-- `.replace(/['']/g, "'")` — likewise two plain ASCII apostrophes. -/
def normalizeApostrophes (l : List Char) : List Char :=
  l.map (fun c => if c = '\'' then '\'' else c)

/-- `.replace(/…/g, '.')`. -/
def ellipsisToPeriod (l : List Char) : List Char :=
  l.map (fun c => if c = '…' then '.' else c)

/-- `.replace(/\.{2,}/g, '.')`: collapse runs of 2+ periods to one. -/
def collapseDots : List Char → List Char
  | [] => []
  | '.' :: '.' :: t => collapseDots ('.' :: t)
  | c :: t => c :: collapseDots t

/-- `.replace(/&nbsp;/g, ' ')`: the literal six-character sequence. -/
def replaceNbsp : List Char → List Char
  | '&' :: 'n' :: 'b' :: 's' :: 'p' :: ';' :: t => ' ' :: replaceNbsp t
  | c :: t => c :: replaceNbsp t
  | [] => []

/-- One attempt of `/\s*\[\d+\]\s*/` at the head of `l`: greedy whitespace,
`[`, one-or-more digits, `]`, greedy whitespace. Returns chars consumed. -/
def matchRefMarker (l : List Char) : Option Nat :=
  let ws1 := l.takeWhile isJsWS
  match l.drop ws1.length with
  | '[' :: r1 =>
    let ds := r1.takeWhile Char.isDigit
    if ds = [] then none
    else
      match r1.drop ds.length with
      | ']' :: r2 => some (ws1.length + 1 + ds.length + 1 + (r2.takeWhile isJsWS).length)
      | _ => none
  | _ => none

/-- `matchRefMarker` at a scan position given as head and tail. -/
def matchRefMarkerAt (c : Char) (t : List Char) : Option Nat :=
  matchRefMarker (c :: t)

/-- `.replace(/\s*\[\d+\]\s*/g, ' ')`, leftmost non-overlapping, via fuel
(one unit per scan step; `l.length` always suffices). -/
def removeRefMarkersGo : Nat → List Char → List Char
  | 0, l => l
  | _, [] => []
  | fuel + 1, c :: t =>
    if (matchRefMarkerAt c t).isSome then
      ' ' :: removeRefMarkersGo fuel (t.drop ((matchRefMarkerAt c t).getD 1 - 1))
    else c :: removeRefMarkersGo fuel t

/-- `.replace(/\s*\[\d+\]\s*/g, ' ')`. -/
def removeRefMarkers (l : List Char) : List Char :=
  removeRefMarkersGo l.length l

/-- `.replace(/\s+/g, ' ')`: each maximal whitespace run becomes one space. -/
def collapseWS : List Char → List Char
  | [] => []
  | a :: t =>
    if isJsWS a then
      match t with
      | [] => [' ']
      | b :: t2 => if isJsWS b then collapseWS (b :: t2) else ' ' :: collapseWS (b :: t2)
    else a :: collapseWS t

/-- One attempt of the tail of `/\.\s*\./` after an initial `.`:
greedy whitespace then another `.`. Returns chars consumed. -/
def matchDotWsDot (t : List Char) : Option Nat :=
  let ws := t.takeWhile isJsWS
  match t.drop ws.length with
  | '.' :: _ => some (ws.length + 1)
  | _ => none

/-- `.replace(/\.\s*\./g, '.')`, leftmost non-overlapping, via fuel. -/
def collapseDotWsDotGo : Nat → List Char → List Char
  | 0, l => l
  | _, [] => []
  | fuel + 1, '.' :: t =>
    match matchDotWsDot t with
    | some k => '.' :: collapseDotWsDotGo fuel (t.drop k)
    | none => '.' :: collapseDotWsDotGo fuel t
  | fuel + 1, c :: t => c :: collapseDotWsDotGo fuel t

/-- `.replace(/\.\s*\./g, '.')`. -/
def collapseDotWsDot (l : List Char) : List Char :=
  collapseDotWsDotGo l.length l

/-- `sanitizeFragment` on character lists: decode entities, then the nine
replacement stages of source lines 38–47, then `trim`. -/
def sanitizeCore (text : List Char) : List Char :=
  trimList (collapseDotWsDot (collapseWS (removeRefMarkers (replaceNbsp
    (collapseDots (ellipsisToPeriod (normalizeApostrophes (normalizeQuotes
      (removeAngles (decodeEntities text))))))))))

/-- `sanitizeFragment(text)` from the source. -/
def sanitizeFragment (text : String) : String :=
  ⟨sanitizeCore text.data⟩

/-! ## `cleanSnippet` markdown stages (source lines 88–106) -/

/-- `.replace(/^#+\s+/gm, '')`: at the start of the string or after a
LineTerminator, drop a run of `#` followed by a greedy whitespace run.
`atStart` tracks whether the current position is a multiline `^` anchor. -/
def stripHeadingsGo : Nat → Bool → List Char → List Char
  | 0, _, l => l
  | _, _, [] => []
  | fuel + 1, atStart, c :: t =>
    if atStart && c = '#' then
      let hashes := (c :: t).takeWhile (fun x => x = '#')
      let r1 := (c :: t).drop hashes.length
      let ws := r1.takeWhile isJsWS
      if ws = [] then hashes ++ stripHeadingsGo fuel false r1
      else
        stripHeadingsGo fuel (match ws.getLast? with
          | some w => isLineTerm w
          | none => false) (r1.drop ws.length)
    else c :: stripHeadingsGo fuel (isLineTerm c) t

/-- `.replace(/^#+\s+/gm, '')`. -/
def stripHeadings (l : List Char) : List Char :=
  stripHeadingsGo l.length true l

/-- Position of the earliest `mm` (two copies of the marker) reachable from
the head across non-LineTerminator characters only (regex `.` semantics). -/
def findDouble (m : Char) : List Char → Option Nat
  | a :: b :: t =>
    if a = m && b = m then some 0
    else if isLineTerm a then none
    else (findDouble m (b :: t)).map (· + 1)
  | _ => none

/-- `.replace(/\*\*(.*?)\*\*/g, '$1')` (and `/__(.*?)__/g` with `m = '_'`):
unwrap the lazily-matched inner text, scanning leftmost, non-overlapping. -/
def unwrapDoubleGo (m : Char) : Nat → List Char → List Char
  | 0, l => l
  | _, [] => []
  | fuel + 1, a :: t =>
    if a = m && t.head? = some m then
      match findDouble m t.tail with
      | some j => t.tail.take j ++ unwrapDoubleGo m fuel (t.tail.drop (j + 2))
      | none => a :: unwrapDoubleGo m fuel t
    else a :: unwrapDoubleGo m fuel t

/-- `.replace(/\*\*(.*?)\*\*/g, '$1')`. -/
def unwrapBold (l : List Char) : List Char :=
  unwrapDoubleGo '*' l.length l

/-- `.replace(/__(.*?)__/g, '$1')`. -/
def unwrapItalic (l : List Char) : List Char :=
  unwrapDoubleGo '_' l.length l

/-- Position of the earliest `m` reachable across non-LineTerminator chars. -/
def findSingle (m : Char) : List Char → Option Nat
  | [] => none
  | c :: t =>
    if c = m then some 0
    else if isLineTerm c then none
    else (findSingle m t).map (· + 1)

/-- For `/\[(.*?)\]\(.*?\)/` applied just after a `[`: find the label length
and the total number of characters consumed after the `[`. The lazy label
grows (with regex backtracking) until a `](` is found whose parenthesis part
also closes. -/
def findLinkEnd : List Char → Option (Nat × Nat)
  | [] => none
  | c :: t =>
    if c = ']' ∧ t.head? = some '(' then
      match findSingle ')' t.tail with
      | some k => some (0, 2 + k + 1)
      | none =>
        if isLineTerm c then none
        else (findLinkEnd t).map (fun p => (p.1 + 1, p.2 + 1))
    else if isLineTerm c then none
    else (findLinkEnd t).map (fun p => (p.1 + 1, p.2 + 1))

/-- `.replace(/\[(.*?)\]\(.*?\)/g, '$1')`. -/
def unwrapLinksGo : Nat → List Char → List Char
  | 0, l => l
  | _, [] => []
  | fuel + 1, c :: t =>
    if c = '[' then
      match findLinkEnd t with
      | some (labelLen, consumed) => t.take labelLen ++ unwrapLinksGo fuel (t.drop consumed)
      | none => c :: unwrapLinksGo fuel t
    else c :: unwrapLinksGo fuel t

/-- `.replace(/\[(.*?)\]\(.*?\)/g, '$1')`. -/
def unwrapLinks (l : List Char) : List Char :=
  unwrapLinksGo l.length l

/-- `` .replace(/`(.*?)`/g, '$1') ``. -/
def unwrapCodeGo (m : Char) : Nat → List Char → List Char
  | 0, l => l
  | _, [] => []
  | fuel + 1, c :: t =>
    if c = m then
      match findSingle m t with
      | some j => t.take j ++ unwrapCodeGo m fuel (t.drop (j + 1))
      | none => c :: unwrapCodeGo m fuel t
    else c :: unwrapCodeGo m fuel t

/-- `` .replace(/`(.*?)`/g, '$1') ``. -/
def unwrapCode (l : List Char) : List Char :=
  unwrapCodeGo '`' l.length l

/-- `cleanSnippet(text)` on character lists (source lines 88–106): markdown
unwrapping, the shared normalization stages, `trim`, then entity decoding. -/
def cleanSnippetCore (text : List Char) : List Char :=
  decodeEntities (trimList (collapseWS (removeRefMarkers (replaceNbsp
    (collapseDots (ellipsisToPeriod (unwrapCode (unwrapLinks (unwrapItalic
      (unwrapBold (stripHeadings text)))))))))))

/-- `cleanSnippet(text)` from the source. -/
def cleanSnippet (text : String) : String :=
  ⟨cleanSnippetCore text.data⟩

/-! ## `extractKeywords` (source lines 54–81) -/

/-- The `STOP_WORDS` set from the source. -/
def STOP_WORDS : List (List Char) :=
  (["a", "an", "the", "is", "are", "was", "were", "be", "been", "being",
    "have", "has", "had", "do", "does", "did", "will", "would", "could", "should",
    "may", "might", "must", "can", "need", "to", "of", "in", "for", "on", "with",
    "at", "by", "from", "as", "into", "through", "during", "before", "after",
    "above", "below", "between", "under", "again", "further", "then", "once",
    "here", "there", "when", "where", "why", "how", "all", "each", "few", "more",
    "most", "other", "some", "such", "no", "nor", "not", "only", "own", "same",
    "so", "than", "too", "very", "just", "and", "but", "if", "or", "because",
    "until", "while", "about", "against", "what", "which", "who", "whom", "this",
    "that", "these", "those", "am", "been", "being", "both", "it", "its", "i",
    "me", "my"] : List String).map String.data

/-- `.replace(/[^\w\s]/g, ' ')`. -/
def keepWordChars (l : List Char) : List Char :=
  l.map (fun c => if isWordChar c || isJsWS c then c else ' ')

/-- `new Set(words)`: keep the first occurrence of each word (fuel-driven;
the filtered tail is never longer than the tail). -/
def dedupWordsGo : Nat → List (List Char) → List (List Char)
  | 0, l => l
  | _, [] => []
  | fuel + 1, w :: ws => w :: dedupWordsGo fuel (ws.filter (fun v => v ≠ w))

/-- `new Set(words)`: keep the first occurrence of each word. -/
def dedupWords (l : List (List Char)) : List (List Char) :=
  dedupWordsGo l.length l

/-- `extractKeywords(text)`: lowercase, strip punctuation, split on
whitespace, keep words longer than 2 that are not stop words, as a set. -/
def extractKeywords (text : List Char) : List (List Char) :=
  if text = [] then []
  else
    dedupWords ((splitWS (keepWordChars (text.map Char.toLower))).filter
      (fun w => 2 < w.length && !STOP_WORDS.contains w))

/-! ## `extractTextFragment` (source lines 117–194) -/

/-- A scored sentence candidate: `{ sentence, score, wordCount }`. -/
structure Scored where
  sentence : List Char
  score : Int
  wordCount : Nat
deriving Repr, DecidableEq

/-- JS `String.prototype.includes`: is `needle` a contiguous substring? -/
def isInfixList (needle hay : List Char) : Bool :=
  hay.tails.any (fun t => needle.isPrefixOf t)

/-- The inner loop of the scorer: does any sentence keyword contain the query
keyword as a substring, or vice versa? -/
def keywordNearMatch (sentenceKeywords : List (List Char)) (kw : List Char) : Bool :=
  sentenceKeywords.any (fun w => isInfixList kw w || isInfixList w kw)

/-- Points one query keyword contributes: 2 for an exact member of the
sentence keyword set, else 1 for a substring overlap, else 0. -/
def keywordPoints (sentenceKeywords : List (List Char)) (kw : List Char) : Int :=
  if sentenceKeywords.contains kw then 2
  else if keywordNearMatch sentenceKeywords kw then 1
  else 0

/-- Score one sentence (source lines 142–173): out-of-bounds word counts are
disqualified with score `-1` but kept; otherwise sum the per-keyword points
and add a conciseness bonus for at most 6 words. -/
def scoreSentence (queryKeywords : List (List Char)) (minWords maxWords : Nat)
    (sentence : List Char) : Scored :=
  let words := splitWS sentence
  let wordCount := words.length
  if wordCount < minWords || wordCount > maxWords then
    ⟨sentence, -1, wordCount⟩
  else
    let sentenceKeywords := extractKeywords sentence
    let score := queryKeywords.foldl (fun acc kw => acc + keywordPoints sentenceKeywords kw) 0
    let score := if wordCount ≤ 6 then score + 1 else score
    ⟨sentence, score, wordCount⟩

/-- The sort comparator (source lines 176–179): `a` must come strictly before
`b` iff `a.score > b.score`, or scores tie and `a.wordCount < b.wordCount`. -/
def strictBefore (a b : Scored) : Bool :=
  b.score < a.score || (a.score == b.score && a.wordCount < b.wordCount)

/-- Insert keeping stability: place `a` after exactly those elements that must
come strictly before it. -/
def insertScored (a : Scored) : List Scored → List Scored
  | [] => [a]
  | b :: t => if strictBefore b a then b :: insertScored a t else a :: b :: t

/-- `Array.prototype.sort` with the source's comparator; JS sorts are stable,
and this insertion sort reproduces the stable order. -/
def sortScored : List Scored → List Scored
  | [] => []
  | a :: t => insertScored a (sortScored t)

/-- The options object `{ query, maxWords, minWords }`; `none` models an
absent property. -/
structure ExtractOptions where
  query : Option String := none
  maxWords : Option Nat := none
  minWords : Option Nat := none

/-- `const query = options.query || ''`. -/
def effQuery (o : ExtractOptions) : String :=
  match o.query with
  | none => ""
  | some q => q

/-- `const maxWords = options.maxWords || 10` (0 is falsy). -/
def effMaxWords (o : ExtractOptions) : Nat :=
  match o.maxWords with
  | none => 10
  | some n => if n = 0 then 10 else n

/-- `const minWords = options.minWords || 3` (0 is falsy). -/
def effMinWords (o : ExtractOptions) : Nat :=
  match o.minWords with
  | none => 3
  | some n => if n = 0 then 3 else n

/-- `snippet.split(/\n+/)[0] || snippet` (source line 127). -/
def rawFirstBlock (snippet : List Char) : List Char :=
  let first := (splitRuns (fun c => c = '\n') [] snippet).headD []
  if first = [] then snippet else first

/-- `cleaned.split(/[.!?]+/).map(s => s.trim()).filter(s => s.length > 0)`. -/
def sentenceSplit (cleaned : List Char) : List (List Char) :=
  ((splitRuns isSentencePunct [] cleaned).map trimList).filter (fun s => s ≠ [])

/-- `cleaned.split(/\s+/).slice(0, maxWords).join(' ')`. -/
def truncateWords (cleaned : List Char) (maxWords : Nat) : List Char :=
  joinWords ((splitWS cleaned).take maxWords)

/-- Source lines 130–193, parameterized by the cleaned working block: sentence
segmentation, scoring, ranking and the three-tier fallback. -/
def selectFromCleaned (cleaned : List Char) (queryKeywords : List (List Char))
    (maxWords minWords : Nat) : String :=
  let sentences := sentenceSplit cleaned
  if sentences = [] then
    ⟨sanitizeCore (truncateWords cleaned maxWords)⟩
  else
    let sorted := sortScored (sentences.map (scoreSentence queryKeywords minWords maxWords))
    match sorted with
    | [] => ⟨sanitizeCore (truncateWords cleaned maxWords)⟩
    | top :: _ =>
      if 0 < top.score then ⟨sanitizeCore top.sentence⟩
      else
        match sorted.find? (fun s => 0 ≤ s.score) with
        | some v => ⟨sanitizeCore v.sentence⟩
        | none => ⟨sanitizeCore (truncateWords cleaned maxWords)⟩

/-- `extractTextFragment(snippet, options)` for a string snippet (the
`!snippet` guard plus the whole selection pipeline, source lines 117–194). -/
def extractTextFragmentCore (snippet : String) (options : ExtractOptions) : String :=
  if snippet = "" then "" else
  selectFromCleaned (cleanSnippetCore (rawFirstBlock snippet.data))
    (extractKeywords (effQuery options).data) (effMaxWords options) (effMinWords options)

/-- Modelled from the spec: the spec's block isolation — split the raw
snippet on runs of newlines and take the first NON-EMPTY block, falling back
to the whole raw snippet only when that split yields no usable block
(§4.4 step 2). Written for comparison against `rawFirstBlock`. -/
def specFirstBlock (snippet : List Char) : List Char :=
  match (splitRuns (fun c => c = '\n') [] snippet).filter (fun b => b ≠ []) with
  | [] => snippet
  | b :: _ => b

/-- The JavaScript argument of `extractTextFragment`: `null`/`undefined`, a
non-string value, or a string (the `typeof snippet !== 'string'` guard). -/
inductive SnippetArg where
  | nullArg
  | nonStringArg
  | strArg (s : String)

/-- `extractTextFragment` including the input guard of source lines 122–124:
`null`, non-string and empty snippets all yield `''`. -/
def extractTextFragment : SnippetArg → ExtractOptions → String
  | .nullArg, _ => ""
  | .nonStringArg, _ => ""
  | .strArg s, o => extractTextFragmentCore s o

/-! ## `buildTextFragmentUrl` (source lines 202–216) -/

/-- Characters `encodeURIComponent` leaves unescaped. -/
def uriUnreserved (c : Char) : Bool :=
  c.isAlphanum || c = '-' || c = '_' || c = '.' || c = '!' || c = '~' ||
  c = '*' || c = '\'' || c = '(' || c = ')'

/-- UTF-8 bytes of a character. -/
def utf8Bytes (c : Char) : List Nat :=
  let v := c.toNat
  if v < 0x80 then [v]
  else if v < 0x800 then [0xC0 + v / 64, 0x80 + v % 64]
  else if v < 0x10000 then [0xE0 + v / 4096, 0x80 + (v / 64) % 64, 0x80 + v % 64]
  else [0xF0 + v / 262144, 0x80 + (v / 4096) % 64, 0x80 + (v / 64) % 64, 0x80 + v % 64]

/-- Uppercase hexadecimal digit. -/
def hexDigitChar (n : Nat) : Char :=
  if n < 10 then Char.ofNat ('0'.toNat + n) else Char.ofNat ('A'.toNat + (n - 10))

/-- Percent-encoding of one byte. -/
def percentByte (b : Nat) : List Char :=
  ['%', hexDigitChar (b / 16), hexDigitChar (b % 16)]

/-- `encodeURIComponent` on character lists. -/
def encodeURIList (l : List Char) : List Char :=
  (l.map (fun c => if uriUnreserved c then [c] else ((utf8Bytes c).map percentByte).flatten)).flatten

/-- `encodeURIComponent(fragmentText)`. -/
def encodeURIComponent (s : String) : String :=
  ⟨encodeURIList s.data⟩

/-- `buildTextFragmentUrl(baseUrl, fragmentText)` from the source: falsy
arguments are a no-op; otherwise take `baseUrl.split('#')[0]` and append the
`#:~:text=` directive with the encoded fragment. -/
def buildTextFragmentUrl (baseUrl fragmentText : String) : String :=
  if baseUrl = "" || fragmentText = "" then baseUrl
  else
    let urlWithoutHash := (splitOnChar '#' baseUrl.data).headD []
    ⟨urlWithoutHash ++ "#:~:text=".data ++ encodeURIList fragmentText.data⟩

/-- The ranking order of the sort comparator: score descending, ties broken
by word count ascending. -/
def rankLE (a b : Scored) : Prop :=
  b.score < a.score ∨ (a.score = b.score ∧ a.wordCount ≤ b.wordCount)

/-- Does the list contain a match of `/\.\s*\./` — two periods separated
only by (possibly zero) whitespace? This includes adjacent periods `..`. -/
def hasDWD : List Char → Bool
  | [] => false
  | '.' :: t => ((t.dropWhile isJsWS).head? = some '.') || hasDWD t
  | _ :: t => hasDWD t

/-- Is all whitespace in the list a single plain space with non-whitespace
(or the end) on its right — i.e. is the list a fixed point of
`.replace(/\s+/g, ' ')`? -/
def wsNorm : List Char → Bool
  | [] => true
  | c :: t =>
    (!(isJsWS c) || (c = ' ' && (match t.head? with
      | some d => !(isJsWS d)
      | none => true))) && wsNorm t

/-! ## Helper lemmas -/

theorem splitOnChar_ne_nil (sep : Char) (l : List Char) : splitOnChar sep l ≠ [] := by
  induction l with
  | nil => simp [splitOnChar]
  | cons c t ih =>
    simp only [splitOnChar]
    split
    · simp
    · split
      · simp
      · simp

theorem splitOnChar_headD (sep : Char) (l : List Char) :
    (splitOnChar sep l).headD [] = l.takeWhile (fun c => c != sep) := by
  induction l with
  | nil => simp [splitOnChar]
  | cons c t ih =>
    by_cases h : c = sep
    · simp [splitOnChar, h, List.takeWhile_cons]
    · simp only [splitOnChar, if_neg h]
      rcases he : splitOnChar sep t with _ | ⟨p, ps⟩
      · exact absurd he (splitOnChar_ne_nil sep t)
      · have := ih
        rw [he] at this
        simp only [List.headD_cons] at this
        simp [List.takeWhile_cons, h, this]

/-! ## Claims -/

/-- C4: the end-to-end scenario — with query "wine bottle background" and
bounds 10/3, the alcohol-policy snippet selects the second sentence, and
`buildFragmentUrl` produces the exact percent-encoded deep link. -/
theorem end_to_end_scenario :
    extractTextFragment (.strArg "Alcohol products must not be prominently featured. However, incidental background items are acceptable.")
        ⟨some "wine bottle background", some 10, some 3⟩ =
      "However, incidental background items are acceptable" ∧
    buildTextFragmentUrl "https://g.com/policy" "However, incidental background items are acceptable" =
      "https://g.com/policy#:~:text=However%2C%20incidental%20background%20items%20are%20acceptable" :=
  ⟨by decide, by decide⟩

/-- C7: `buildTextFragmentUrl` returns `baseUrl` unchanged when either
argument is falsy; otherwise it is `baseUrl` truncated at the first `#`,
then `#:~:text=` and the URI-component encoding of the fragment — so any
pre-existing fragment in `baseUrl` is discarded. -/
theorem buildTextFragmentUrl_spec (u f : String) :
    ((u = "" ∨ f = "") → buildTextFragmentUrl u f = u) ∧
    (u ≠ "" → f ≠ "" →
      buildTextFragmentUrl u f =
        ⟨u.data.takeWhile (fun c => c != '#') ++ ("#:~:text=".data ++ encodeURIList f.data)⟩) := by
  constructor
  · rintro (h | h) <;> simp [buildTextFragmentUrl, h]
  · intro h1 h2
    simp only [buildTextFragmentUrl]
    rw [if_neg (by simp [h1, h2])]
    rw [splitOnChar_headD]
    simp [List.append_assoc]

/-- Witness for C7 at a concrete input with a pre-existing fragment. -/
theorem buildTextFragmentUrl_spec_witness :
    buildTextFragmentUrl "https://x.com/a#old" "hello" = "https://x.com/a#:~:text=hello" := by
  have h := (buildTextFragmentUrl_spec "https://x.com/a#old" "hello").2 (by decide) (by decide)
  exact h.trans (by decide)

/-- C8: invalid or missing snippets degrade to the empty string — `null`,
non-string values and the empty string all give `""`, for every option
object (hence for every query). -/
theorem extract_invalid_inputs (o : ExtractOptions) :
    extractTextFragment .nullArg o = "" ∧
    extractTextFragment .nonStringArg o = "" ∧
    extractTextFragment (.strArg "") o = "" :=
  ⟨rfl, rfl, rfl⟩

/-- C10: falsy options take the defaults — `maxWords: 0` behaves as the
default 10, `minWords: 0` as the default 3, and a falsy query as `''`, so
passing 0 for a bound is identical to omitting it. -/
theorem falsy_options_take_defaults (a : SnippetArg) (q : Option String) (mw nw : Option Nat) :
    extractTextFragment a ⟨q, some 0, nw⟩ = extractTextFragment a ⟨q, none, nw⟩ ∧
    extractTextFragment a ⟨q, mw, some 0⟩ = extractTextFragment a ⟨q, mw, none⟩ ∧
    extractTextFragment a ⟨some "", mw, nw⟩ = extractTextFragment a ⟨none, mw, nw⟩ ∧
    effMaxWords ⟨q, none, nw⟩ = 10 ∧ effMinWords ⟨q, mw, none⟩ = 3 ∧
    effQuery ⟨none, mw, nw⟩ = "" := by
  refine ⟨?_, ?_, ?_, rfl, rfl, rfl⟩ <;> cases a <;> rfl

/-! ## Ranking (C6) -/

theorem strictBefore_true {x y : Scored} (h : strictBefore x y = true) : rankLE x y := by
  simp only [strictBefore, Bool.or_eq_true, decide_eq_true_eq, Bool.and_eq_true,
    beq_iff_eq] at h
  rcases h with h | ⟨h1, h2⟩
  · exact Or.inl h
  · exact Or.inr ⟨h1, Nat.le_of_lt h2⟩

theorem strictBefore_false {x y : Scored} (h : strictBefore x y = false) : rankLE y x := by
  simp only [strictBefore, Bool.or_eq_false_iff, decide_eq_false_iff_not, Bool.and_eq_false_iff,
    beq_eq_false_iff_ne, ne_eq] at h
  obtain ⟨h1, h2⟩ := h
  rcases lt_or_eq_of_le (not_lt.mp h1) with hlt | heq
  · exact Or.inl hlt
  · rcases h2 with h2 | h2
    · exact absurd heq h2
    · exact Or.inr ⟨heq.symm, not_lt.mp (by simpa using h2)⟩

theorem rankLE_trans {a b c : Scored} (h1 : rankLE a b) (h2 : rankLE b c) : rankLE a c := by
  rcases h1 with h1 | ⟨e1, w1⟩ <;> rcases h2 with h2 | ⟨e2, w2⟩
  · exact Or.inl (lt_trans h2 h1)
  · exact Or.inl (e2 ▸ h1)
  · exact Or.inl (e1 ▸ h2)
  · exact Or.inr ⟨e1.trans e2, le_trans w1 w2⟩

theorem insertScored_perm (a : Scored) (l : List Scored) :
    (insertScored a l).Perm (a :: l) := by
  induction l with
  | nil => exact List.Perm.refl _
  | cons b t ih =>
    simp only [insertScored]
    split
    · exact ((ih.cons b).trans (List.Perm.swap a b t))
    · exact List.Perm.refl _

theorem sortScored_perm (l : List Scored) : (sortScored l).Perm l := by
  induction l with
  | nil => exact List.Perm.refl _
  | cons a t ih => exact (insertScored_perm a (sortScored t)).trans (ih.cons a)

theorem insertScored_sorted (a : Scored) {l : List Scored} (h : l.Sorted rankLE) :
    (insertScored a l).Sorted rankLE := by
  induction l with
  | nil => simp [insertScored, List.Sorted]
  | cons b t ih =>
    rw [List.sorted_cons] at h
    obtain ⟨hb, ht⟩ := h
    simp only [insertScored]
    split
    · rename_i hsb
      rw [List.sorted_cons]
      refine ⟨?_, ih ht⟩
      intro x hx
      rcases List.mem_cons.mp ((insertScored_perm a t).mem_iff.mp hx) with hxa | hxt
      · exact hxa ▸ strictBefore_true hsb
      · exact hb x hxt
    · rename_i hsb
      rw [List.sorted_cons]
      have hab : rankLE a b := strictBefore_false (Bool.eq_false_iff.mpr hsb)
      refine ⟨?_, List.sorted_cons.mpr ⟨hb, ht⟩⟩
      intro x hx
      rcases List.mem_cons.mp hx with hxb | hxt
      · exact hxb ▸ hab
      · exact rankLE_trans hab (hb x hxt)

theorem sortScored_sorted (l : List Scored) : (sortScored l).Sorted rankLE := by
  induction l with
  | nil => simp [sortScored, List.Sorted]
  | cons a t ih => exact insertScored_sorted a ih

/-- C6: candidates are ranked by score descending with ties broken by word
count ascending (the sorted list is a permutation of the candidates, ordered
by `rankLE`); in particular, for two length-qualified sentences with equal
score, `selectFragment` picks the one with the smaller word count. -/
theorem ranking_by_score_then_length :
    (∀ l : List Scored, (sortScored l).Perm l ∧ (sortScored l).Sorted rankLE) ∧
    extractTextFragment (.strArg "alpha beta gamma delta epsilon. one two three four.")
        ⟨none, none, none⟩ = "one two three four" :=
  ⟨fun l => ⟨sortScored_perm l, sortScored_sorted l⟩, by decide⟩

/-! ## Scoring (C5) -/

theorem foldl_add_map_sum (f : List Char → Int) (l : List (List Char)) (init : Int) :
    l.foldl (fun acc kw => acc + f kw) init = init + (l.map f).sum := by
  induction l generalizing init with
  | nil => simp
  | cons kw t ih =>
    simp only [List.foldl_cons, List.map_cons, List.sum_cons, ih]
    ring

theorem keywordPoints_eq (sk : List (List Char)) (kw : List Char) :
    keywordPoints sk kw =
      if kw ∈ sk then (2 : Int)
      else if ∃ w ∈ sk, isInfixList kw w = true ∨ isInfixList w kw = true then 1
      else 0 := by
  simp only [keywordPoints, keywordNearMatch]
  by_cases hm : kw ∈ sk
  · rw [if_pos (List.elem_iff.mpr hm), if_pos hm]
  · rw [if_neg (fun h => hm (List.elem_iff.mp h)), if_neg hm]
    by_cases ha : ∃ w ∈ sk, isInfixList kw w = true ∨ isInfixList w kw = true
    · rw [if_pos ?_, if_pos ha]
      obtain ⟨w, hw, hor⟩ := ha
      exact List.any_eq_true.mpr ⟨w, hw, by simpa using hor⟩
    · rw [if_neg ?_, if_neg ha]
      intro h
      obtain ⟨w, hw, hor⟩ := List.any_eq_true.mp h
      exact ha ⟨w, hw, by simpa using hor⟩

/-- C5: for a length-qualified sentence the score is the sum, over the query
keywords, of 2 for an exact keyword-set member else 1 for a one-per-keyword
substring overlap else 0, plus a flat +1 when the word count is at most 6;
out-of-bounds sentences score -1 but every candidate is retained in the pool
with its sentence text. -/
theorem scoring_formula :
    (∀ (qkw : List (List Char)) (minW maxW : Nat) (s : List Char),
      (scoreSentence qkw minW maxW s).sentence = s ∧
      (scoreSentence qkw minW maxW s).wordCount = (splitWS s).length ∧
      (((splitWS s).length < minW ∨ maxW < (splitWS s).length) →
        (scoreSentence qkw minW maxW s).score = -1) ∧
      (minW ≤ (splitWS s).length → (splitWS s).length ≤ maxW →
        (scoreSentence qkw minW maxW s).score =
          (qkw.map (fun kw =>
            if kw ∈ extractKeywords s then (2 : Int)
            else if ∃ w ∈ extractKeywords s, isInfixList kw w = true ∨ isInfixList w kw = true then 1
            else 0)).sum +
          (if (splitWS s).length ≤ 6 then 1 else 0))) ∧
    (∀ (qkw : List (List Char)) (minW maxW : Nat) (sentences : List (List Char)),
      (sentences.map (scoreSentence qkw minW maxW)).map Scored.sentence = sentences) := by
  constructor
  · intro qkw minW maxW s
    by_cases hb : (splitWS s).length < minW ∨ maxW < (splitWS s).length
    · have hcond : ((splitWS s).length < minW || (splitWS s).length > maxW) = true := by
        simpa using hb
      refine ⟨?_, ?_, fun _ => ?_, fun h1 h2 => ?_⟩ <;>
        simp only [scoreSentence, hcond, if_true]
      omega
    · have hcond : ((splitWS s).length < minW || (splitWS s).length > maxW) = false := by
        simpa using (not_or.mp hb)
      refine ⟨?_, ?_, fun h => absurd h hb, fun h1 h2 => ?_⟩ <;>
        simp only [scoreSentence, hcond, if_false, Bool.false_eq_true]
      rw [foldl_add_map_sum]
      have hmap : qkw.map (keywordPoints (extractKeywords s)) =
          qkw.map (fun kw =>
            if kw ∈ extractKeywords s then (2 : Int)
            else if ∃ w ∈ extractKeywords s,
                isInfixList kw w = true ∨ isInfixList w kw = true then 1
            else 0) :=
        List.map_congr_left (fun kw _ => keywordPoints_eq (extractKeywords s) kw)
      split <;> rw [hmap] <;> ring
  · intro qkw minW maxW sentences
    rw [List.map_map]
    have : (Scored.sentence ∘ scoreSentence qkw minW maxW) = id := by
      funext s
      simp only [Function.comp_apply, id_eq, scoreSentence]
      split <;> rfl
    rw [this, List.map_id]

/-- Witness for C5 at a concrete sentence and keyword list. -/
theorem scoring_formula_witness :
    (scoreSentence (extractKeywords "wine bottle background".data) 3 10
        "However, incidental background items are acceptable".data).score = 3 := by
  have h := ((scoring_formula.1 (extractKeywords "wine bottle background".data) 3 10
      "However, incidental background items are acceptable".data).2.2.2
      (by decide) (by decide))
  exact h.trans (by decide)

/-! ## Block isolation (C2) -/

theorem splitRuns_headD (sep : Char → Bool) (acc : List Char) (l : List Char) :
    (splitRuns sep acc l).headD [] = acc.reverse ++ l.takeWhile (fun c => !(sep c)) := by
  induction l generalizing acc with
  | nil => simp [splitRuns.eq_1]
  | cons a t ih =>
    cases t with
    | nil =>
      rw [splitRuns.eq_2]
      by_cases ha : sep a
      · simp [ha, List.takeWhile_cons]
      · simp [ha, List.takeWhile_cons, splitRuns.eq_1]
    | cons b t2 =>
      rw [splitRuns.eq_3]
      by_cases ha : sep a
      · rw [if_pos ha]
        by_cases hb : sep b
        · rw [if_pos hb, ih]
          simp [List.takeWhile_cons, ha, hb]
        · rw [if_neg hb]
          simp [List.takeWhile_cons, ha]
      · rw [if_neg ha, ih]
        simp [List.takeWhile_cons, ha]

theorem rawFirstBlock_eq (l : List Char) :
    rawFirstBlock l =
      if l.takeWhile (fun c => c ≠ '\n') = [] then l
      else l.takeWhile (fun c => c ≠ '\n') := by
  have hfun : (fun c => !(decide (c = '\n'))) = (fun c : Char => decide (c ≠ '\n')) := by
    funext c
    simp [decide_not]
  unfold rawFirstBlock
  rw [splitRuns_headD]
  simp only [List.reverse_nil, List.nil_append]
  rw [hfun]

/-- C2 counterexample: for the snippet `"\nab.\ncd"` the code does NOT use the
first non-empty newline-block (`"ab."`): because `split(/\n+/)[0]` is the
empty string, it falls back to the whole raw snippet and yields `"ab. cd"`,
while the spec's block isolation would yield `"ab."`. -/
theorem block_isolation_cex :
    extractTextFragment (.strArg "\nab.\ncd") ⟨none, none, none⟩ ≠
      selectFromCleaned (cleanSnippetCore (specFirstBlock "\nab.\ncd".data))
        (extractKeywords (effQuery ⟨none, none, none⟩).data)
        (effMaxWords ⟨none, none, none⟩) (effMinWords ⟨none, none, none⟩) := by
  decide

/-- C2 (amended): the working block is the text of the raw snippet before the
first newline; only when that prefix is empty (a snippet starting with a
newline) does the code fall back to the whole raw snippet — leading empty
blocks are not skipped. The chosen block is then cleaned with `cleanSnippet`
and drives the rest of the pipeline. -/
theorem block_isolation_amended (s : String) (o : ExtractOptions) (h : s ≠ "") :
    extractTextFragmentCore s o =
      selectFromCleaned
        (cleanSnippetCore
          (if s.data.takeWhile (fun c => c ≠ '\n') = [] then s.data
           else s.data.takeWhile (fun c => c ≠ '\n')))
        (extractKeywords (effQuery o).data) (effMaxWords o) (effMinWords o) := by
  unfold extractTextFragmentCore
  rw [if_neg h, rawFirstBlock_eq]

/-- Witness for the amended C2 at a concrete multi-paragraph snippet. -/
theorem block_isolation_amended_witness :
    extractTextFragmentCore "First block one two.\nsecond block" ⟨none, none, none⟩ =
      selectFromCleaned
        (cleanSnippetCore
          (if "First block one two.\nsecond block".data.takeWhile (fun c => c ≠ '\n') = []
           then "First block one two.\nsecond block".data
           else "First block one two.\nsecond block".data.takeWhile (fun c => c ≠ '\n')))
        (extractKeywords (effQuery ⟨none, none, none⟩).data)
        (effMaxWords ⟨none, none, none⟩) (effMinWords ⟨none, none, none⟩) :=
  block_isolation_amended "First block one two.\nsecond block" ⟨none, none, none⟩ (by decide)

/-! ## Character tracking through the sanitize stages (C9, C1) -/

theorem normalizeQuotes_id (l : List Char) : normalizeQuotes l = l := by
  have h : (fun c : Char => if c = '"' then '"' else c) = id := by
    funext c
    by_cases hc : c = '"' <;> simp [hc]
  simp [normalizeQuotes, h]

theorem normalizeApostrophes_id (l : List Char) : normalizeApostrophes l = l := by
  have h : (fun c : Char => if c = '\'' then '\'' else c) = id := by
    funext c
    by_cases hc : c = '\'' <;> simp [hc]
  simp [normalizeApostrophes, h]

theorem mem_ellipsisToPeriod {c : Char} {l : List Char} (h : c ∈ ellipsisToPeriod l) :
    c ∈ l ∨ c = '.' := by
  obtain ⟨d, hd, he⟩ := List.mem_map.mp h
  by_cases hdd : d = '…'
  · right
    simp [hdd] at he
    exact he.symm
  · left
    simp [hdd] at he
    exact he ▸ hd

theorem mem_collapseDots {c : Char} {l : List Char} (h : c ∈ collapseDots l) : c ∈ l := by
  induction l using collapseDots.induct with
  | case1 => simpa [collapseDots.eq_1] using h
  | case2 t ih =>
    rw [collapseDots.eq_2] at h
    exact List.mem_cons_of_mem _ (ih h)
  | case3 d t hne ih =>
    rw [collapseDots.eq_3 d t hne] at h
    rcases List.mem_cons.mp h with h | h
    · exact h ▸ List.mem_cons_self d t
    · exact List.mem_cons_of_mem _ (ih h)

theorem mem_replaceNbsp {c : Char} {l : List Char} (h : c ∈ replaceNbsp l) :
    c ∈ l ∨ c = ' ' := by
  induction l using replaceNbsp.induct with
  | case1 t ih =>
    rw [replaceNbsp.eq_1] at h
    rcases List.mem_cons.mp h with h | h
    · exact Or.inr h
    · rcases ih h with h | h
      · exact Or.inl (by simp [h])
      · exact Or.inr h
  | case2 d t hne ih =>
    rw [replaceNbsp.eq_2 d t hne] at h
    rcases List.mem_cons.mp h with h | h
    · exact Or.inl (h ▸ List.mem_cons_self d t)
    · rcases ih h with h | h
      · exact Or.inl (List.mem_cons_of_mem _ h)
      · exact Or.inr h
  | case3 => simpa [replaceNbsp.eq_3] using h

theorem collapseWS_cons_nonws {b : Char} (t : List Char) (hb : ¬ isJsWS b = true) :
    collapseWS (b :: t) = b :: collapseWS t := by
  cases t with
  | nil => rw [collapseWS.eq_2, if_neg hb]
  | cons d t2 => rw [collapseWS.eq_3, if_neg hb]

theorem mem_removeRefMarkersGo {c : Char} {fuel : Nat} {l : List Char}
    (h : c ∈ removeRefMarkersGo fuel l) : c ∈ l ∨ c = ' ' := by
  induction fuel, l using removeRefMarkersGo.induct with
  | case1 l => exact Or.inl (by simpa [removeRefMarkersGo.eq_1] using h)
  | case2 t ht => simp [removeRefMarkersGo.eq_2] at h
  | case3 fuel d t hm ih =>
    rw [removeRefMarkersGo.eq_3, if_pos hm] at h
    rcases List.mem_cons.mp h with h | h
    · exact Or.inr h
    · rcases ih h with h | h
      · exact Or.inl (List.mem_cons_of_mem _ (List.drop_subset _ _ h))
      · exact Or.inr h
  | case4 fuel d t hm ih =>
    rw [removeRefMarkersGo.eq_3, if_neg hm] at h
    rcases List.mem_cons.mp h with h | h
    · exact Or.inl (h ▸ List.mem_cons_self d t)
    · rcases ih h with h | h
      · exact Or.inl (List.mem_cons_of_mem _ h)
      · exact Or.inr h

theorem mem_collapseWS {c : Char} {l : List Char} (h : c ∈ collapseWS l) :
    c ∈ l ∨ c = ' ' := by
  induction l using collapseWS.induct with
  | case1 => simp [collapseWS.eq_1] at h
  | case2 b hb =>
    rw [collapseWS.eq_2, if_pos hb] at h
    simp at h
    exact Or.inr h
  | case3 b hb d t2 hd ih =>
    rw [collapseWS.eq_3, if_pos hb, if_pos hd] at h
    rcases ih h with h | h
    · exact Or.inl (List.mem_cons_of_mem _ h)
    · exact Or.inr h
  | case4 b hb d t2 hd ih =>
    rw [collapseWS.eq_3, if_pos hb, if_neg hd] at h
    rcases List.mem_cons.mp h with h | h
    · exact Or.inr h
    · rcases ih h with h | h
      · exact Or.inl (List.mem_cons_of_mem _ h)
      · exact Or.inr h
  | case5 b t2 hb ih =>
    rw [collapseWS_cons_nonws t2 hb] at h
    rcases List.mem_cons.mp h with h | h
    · exact Or.inl (h ▸ List.mem_cons_self b t2)
    · rcases ih h with h | h
      · exact Or.inl (List.mem_cons_of_mem _ h)
      · exact Or.inr h

theorem mem_collapseDotWsDotGo {c : Char} {fuel : Nat} {l : List Char}
    (h : c ∈ collapseDotWsDotGo fuel l) : c ∈ l := by
  induction fuel, l using collapseDotWsDotGo.induct with
  | case1 l => simpa [collapseDotWsDotGo.eq_1] using h
  | case2 t ht => simpa [collapseDotWsDotGo.eq_2 _ ht] using h
  | case3 fuel t k hm ih =>
    simp only [collapseDotWsDotGo.eq_3, hm] at h
    rcases List.mem_cons.mp h with h | h
    · exact h ▸ List.mem_cons_self '.' t
    · exact List.mem_cons_of_mem _ (List.drop_subset _ _ (ih h))
  | case4 fuel t hm ih =>
    simp only [collapseDotWsDotGo.eq_3, hm] at h
    rcases List.mem_cons.mp h with h | h
    · exact h ▸ List.mem_cons_self '.' t
    · exact List.mem_cons_of_mem _ (ih h)
  | case5 fuel d t hne ih =>
    rw [collapseDotWsDotGo.eq_4 fuel d t hne] at h
    rcases List.mem_cons.mp h with h | h
    · exact h ▸ List.mem_cons_self d t
    · exact List.mem_cons_of_mem _ (ih h)

theorem mem_trimList {c : Char} {l : List Char} (h : c ∈ trimList l) : c ∈ l := by
  unfold trimList at h
  rw [List.mem_reverse] at h
  have h1 := (List.dropWhile_sublist _).subset h
  rw [List.mem_reverse] at h1
  exact (List.dropWhile_sublist _).subset h1

theorem sanitize_mem_chain {ch : Char} (hsp : ch ≠ ' ') (hdot : ch ≠ '.') {l : List Char}
    (h : ch ∈ sanitizeCore l) : ch ∈ removeAngles (decodeEntities l) := by
  unfold sanitizeCore at h
  have h1 := mem_trimList h
  have h2 := mem_collapseDotWsDotGo h1
  rcases mem_collapseWS h2 with h3 | h3
  · rcases mem_removeRefMarkersGo h3 with h4 | h4
    · rcases mem_replaceNbsp h4 with h5 | h5
      · have h6 := mem_collapseDots h5
        rcases mem_ellipsisToPeriod h6 with h7 | h7
        · rwa [normalizeApostrophes_id, normalizeQuotes_id] at h7
        · exact absurd h7 hdot
      · exact absurd h5 hsp
    · exact absurd h4 hsp
  · exact absurd h3 hsp

theorem sanitizeCore_no_angle (l : List Char) :
    '<' ∉ sanitizeCore l ∧ '>' ∉ sanitizeCore l := by
  constructor
  · intro h
    have := sanitize_mem_chain (by decide) (by decide) h
    simp [removeAngles, List.mem_filter] at this
  · intro h
    have := sanitize_mem_chain (by decide) (by decide) h
    simp [removeAngles, List.mem_filter] at this

theorem scoreSentence_sentence (q : List (List Char)) (a b : Nat) (s : List Char) :
    (scoreSentence q a b s).sentence = s := by
  simp only [scoreSentence]
  split <;> rfl

theorem extract_strArg (s : String) (o : ExtractOptions) :
    extractTextFragment (.strArg s) o = extractTextFragmentCore s o := rfl

theorem selectFromCleaned_shape (cleaned : List Char) (qkw : List (List Char)) (mw nw : Nat) :
    ∃ t, selectFromCleaned cleaned qkw mw nw = ⟨sanitizeCore t⟩ ∧
      (t ∈ sentenceSplit cleaned ∨ t = truncateWords cleaned mw) := by
  have hmem : ∀ x, x ∈ sortScored ((sentenceSplit cleaned).map (scoreSentence qkw nw mw)) →
      x.sentence ∈ sentenceSplit cleaned := by
    intro x hx
    have hx2 := (sortScored_perm _).subset hx
    obtain ⟨s, hs, he⟩ := List.mem_map.mp hx2
    rw [← he, scoreSentence_sentence]
    exact hs
  simp only [selectFromCleaned]
  split
  · exact ⟨_, rfl, Or.inr rfl⟩
  · split
    · exact ⟨_, rfl, Or.inr rfl⟩
    · rename_i hne top rest hs
      split
      · refine ⟨top.sentence, rfl, Or.inl ?_⟩
        exact hmem top (hs ▸ List.mem_cons_self top rest)
      · split
        · rename_i v hv
          refine ⟨v.sentence, rfl, Or.inl ?_⟩
          exact hmem v (List.mem_of_find?_eq_some hv)
        · exact ⟨_, rfl, Or.inr rfl⟩

/-- C9: no Fragment ever contains a raw `<` or `>`: every `sanitizeFragment`
output and every `extractTextFragment` result is free of both characters. -/
theorem fragment_never_contains_angle_brackets :
    (∀ s : String, '<' ∉ (sanitizeFragment s).data ∧ '>' ∉ (sanitizeFragment s).data) ∧
    ∀ (a : SnippetArg) (o : ExtractOptions),
      '<' ∉ (extractTextFragment a o).data ∧ '>' ∉ (extractTextFragment a o).data := by
  constructor
  · intro s
    exact sanitizeCore_no_angle s.data
  · intro a o
    cases a with
    | nullArg => simp [extractTextFragment]
    | nonStringArg => simp [extractTextFragment]
    | strArg s =>
      rw [extract_strArg]
      unfold extractTextFragmentCore
      by_cases h : s = ""
      · rw [if_pos h]
        simp
      · rw [if_neg h]
        obtain ⟨t, ht, _⟩ := selectFromCleaned_shape (cleanSnippetCore (rawFirstBlock s.data))
          (extractKeywords (effQuery o).data) (effMaxWords o) (effMinWords o)
        rw [ht]
        exact sanitizeCore_no_angle t

/-! ## Identity of sanitize stages on benign input (C1, C3) -/

theorem decodeEntitiesGo_id {l : List Char} (fuel : Nat) (h : '&' ∉ l) :
    decodeEntitiesGo fuel l = l := by
  induction fuel, l using decodeEntitiesGo.induct with
  | case1 l => rw [decodeEntitiesGo.eq_1]
  | case2 t ht => rw [decodeEntitiesGo.eq_2 _ ht]
  | case3 fuel t c k hm ih => exact absurd (List.mem_cons_self '&' t) h
  | case4 fuel t hm ih => exact absurd (List.mem_cons_self '&' t) h
  | case5 fuel c t hne ih =>
    rw [decodeEntitiesGo.eq_4 fuel c t hne, ih (fun hc => h (List.mem_cons_of_mem c hc))]

theorem decodeEntities_id {l : List Char} (h : '&' ∉ l) : decodeEntities l = l :=
  decodeEntitiesGo_id l.length h

theorem removeAngles_id {l : List Char} (h1 : '<' ∉ l) (h2 : '>' ∉ l) :
    removeAngles l = l := by
  apply List.filter_eq_self.mpr
  intro c hc
  simp only [Bool.not_eq_true', Bool.or_eq_false_iff, decide_eq_false_iff_not]
  exact ⟨fun he => h1 (he ▸ hc), fun he => h2 (he ▸ hc)⟩

theorem ellipsisToPeriod_id {l : List Char} (h : '…' ∉ l) : ellipsisToPeriod l = l := by
  unfold ellipsisToPeriod
  have : ∀ c ∈ l, (if c = '…' then '.' else c) = id c := by
    intro c hc
    have hne : ¬ c = '…' := fun he => h (he ▸ hc)
    rw [if_neg hne]
    rfl
  rw [List.map_congr_left this, List.map_id]

theorem replaceNbsp_id {l : List Char} (h : '&' ∉ l) : replaceNbsp l = l := by
  induction l using replaceNbsp.induct with
  | case1 t ih => exact absurd (List.mem_cons_self '&' _) h
  | case2 c t hne ih =>
    rw [replaceNbsp.eq_2 c t hne, ih (fun hc => h (List.mem_cons_of_mem c hc))]
  | case3 => rw [replaceNbsp.eq_3]

theorem matchRefMarker_some_mem {l : List Char} {k : Nat} (h : matchRefMarker l = some k) :
    '[' ∈ l := by
  simp only [matchRefMarker] at h
  split at h
  · rename_i r1 heq
    exact List.drop_subset _ l (heq ▸ List.mem_cons_self '[' r1)
  · exact absurd h (by simp)

theorem removeRefMarkersGo_id {l : List Char} (fuel : Nat) (h : '[' ∉ l) :
    removeRefMarkersGo fuel l = l := by
  induction fuel, l using removeRefMarkersGo.induct with
  | case1 l => rw [removeRefMarkersGo.eq_1]
  | case2 t ht => rw [removeRefMarkersGo.eq_2 _ ht]
  | case3 fuel c t hm ih =>
    exfalso
    obtain ⟨k, hk⟩ := Option.isSome_iff_exists.mp hm
    exact h (matchRefMarker_some_mem hk)
  | case4 fuel c t hm ih =>
    rw [removeRefMarkersGo.eq_3, if_neg hm, ih (fun hc => h (List.mem_cons_of_mem c hc))]

theorem removeRefMarkers_id {l : List Char} (h : '[' ∉ l) : removeRefMarkers l = l :=
  removeRefMarkersGo_id l.length h

/-! ## Character survival through the destructive stages (C1) -/

theorem mem_collapseDots_of_ne_dot {c : Char} {l : List Char} (hc : c ∈ l) (hne : c ≠ '.') :
    c ∈ collapseDots l := by
  induction l using collapseDots.induct with
  | case1 => exact absurd hc (List.not_mem_nil c)
  | case2 t ih =>
    rw [collapseDots.eq_2]
    rcases List.mem_cons.mp hc with h | h
    · exact absurd h hne
    · exact ih h
  | case3 d t hcond ih =>
    rw [collapseDots.eq_3 d t hcond]
    rcases List.mem_cons.mp hc with h | h
    · exact h ▸ List.mem_cons_self c _
    · exact List.mem_cons_of_mem d (ih h)

theorem dot_mem_collapseDots {l : List Char} (hc : '.' ∈ l) : '.' ∈ collapseDots l := by
  induction l using collapseDots.induct with
  | case1 => exact absurd hc (List.not_mem_nil _)
  | case2 t ih =>
    rw [collapseDots.eq_2]
    exact ih (List.mem_cons_self '.' t)
  | case3 d t hcond ih =>
    rw [collapseDots.eq_3 d t hcond]
    rcases List.mem_cons.mp hc with h | h
    · exact h ▸ List.mem_cons_self d _
    · exact List.mem_cons_of_mem d (ih h)

theorem mem_collapseWS_of_not_ws {c : Char} {l : List Char} (hc : c ∈ l)
    (hws : isJsWS c = false) : c ∈ collapseWS l := by
  induction l using collapseWS.induct with
  | case1 => exact absurd hc (List.not_mem_nil c)
  | case2 b hb =>
    rcases List.mem_cons.mp hc with h | h
    · rw [h] at hws
      rw [hws] at hb
      exact absurd hb (by simp)
    · exact absurd h (List.not_mem_nil c)
  | case3 b hb d t2 hd ih =>
    rw [collapseWS.eq_3, if_pos hb, if_pos hd]
    rcases List.mem_cons.mp hc with h | h
    · rw [h] at hws
      rw [hws] at hb
      exact absurd hb (by simp)
    · exact ih h
  | case4 b hb d t2 hd ih =>
    rw [collapseWS.eq_3, if_pos hb, if_neg hd]
    rcases List.mem_cons.mp hc with h | h
    · rw [h] at hws
      rw [hws] at hb
      exact absurd hb (by simp)
    · exact List.mem_cons_of_mem ' ' (ih h)
  | case5 b t2 hb ih =>
    rw [collapseWS_cons_nonws t2 hb]
    rcases List.mem_cons.mp hc with h | h
    · exact h ▸ List.mem_cons_self c _
    · exact List.mem_cons_of_mem b (ih h)

theorem drop_length_takeWhile (p : Char → Bool) (l : List Char) :
    l.drop (l.takeWhile p).length = l.dropWhile p := by
  induction l with
  | nil => rfl
  | cons a t ih =>
    by_cases ha : p a
    · simp [List.takeWhile_cons, List.dropWhile_cons, ha, ih]
    · simp [List.takeWhile_cons, List.dropWhile_cons, ha]

theorem matchDotWsDot_decomp {t : List Char} {k : Nat} (h : matchDotWsDot t = some k) :
    ∃ ws rest, t = ws ++ '.' :: rest ∧ (∀ c ∈ ws, isJsWS c = true) ∧ t.drop k = rest := by
  simp only [matchDotWsDot] at h
  split at h
  · rename_i rest heq
    have hk : k = (t.takeWhile isJsWS).length + 1 := (Option.some_injective _ h).symm
    refine ⟨t.takeWhile isJsWS, rest, ?_, fun c hc => List.mem_takeWhile_imp hc, ?_⟩
    · have ht : t.takeWhile isJsWS ++ t.dropWhile isJsWS = t :=
        List.takeWhile_append_dropWhile isJsWS t
      have hdw : t.dropWhile isJsWS = '.' :: rest := by
        rw [← drop_length_takeWhile isJsWS t]
        exact heq
      conv_lhs => rw [← ht]
      rw [hdw]
    · have hstep : t.drop ((t.takeWhile isJsWS).length + 1) =
          (t.drop (t.takeWhile isJsWS).length).drop 1 := by
        rw [List.drop_drop, Nat.add_comm]
      rw [hk, hstep, heq]
      rfl
  · exact absurd h (by simp)

theorem mem_collapseDotWsDotGo_of {c : Char} {fuel : Nat} {l : List Char} (hc : c ∈ l)
    (hws : isJsWS c = false) (hne : c ≠ '.') : c ∈ collapseDotWsDotGo fuel l := by
  induction fuel, l using collapseDotWsDotGo.induct with
  | case1 l => rwa [collapseDotWsDotGo.eq_1]
  | case2 t ht => rwa [collapseDotWsDotGo.eq_2 _ ht]
  | case3 fuel t k hm ih =>
    simp only [collapseDotWsDotGo.eq_3, hm]
    rcases List.mem_cons.mp hc with h | h
    · exact absurd h hne
    · obtain ⟨ws, rest, hts, hwsall, hdrop⟩ := matchDotWsDot_decomp hm
      apply List.mem_cons_of_mem
      apply ih
      rw [hdrop]
      rw [hts] at h
      rcases List.mem_append.mp h with h | h
      · rw [hwsall c h] at hws
        exact absurd hws (by simp)
      · rcases List.mem_cons.mp h with h | h
        · exact absurd h hne
        · exact h
  | case4 fuel t hm ih =>
    simp only [collapseDotWsDotGo.eq_3, hm]
    rcases List.mem_cons.mp hc with h | h
    · exact absurd h hne
    · exact List.mem_cons_of_mem '.' (ih h)
  | case5 fuel d t hcond ih =>
    rw [collapseDotWsDotGo.eq_4 fuel d t hcond]
    rcases List.mem_cons.mp hc with h | h
    · exact h ▸ List.mem_cons_self c _
    · exact List.mem_cons_of_mem d (ih h)

theorem dot_mem_collapseDotWsDotGo {fuel : Nat} {l : List Char} (hc : '.' ∈ l) :
    '.' ∈ collapseDotWsDotGo fuel l := by
  induction fuel, l using collapseDotWsDotGo.induct with
  | case1 l => rwa [collapseDotWsDotGo.eq_1]
  | case2 t ht => rwa [collapseDotWsDotGo.eq_2 _ ht]
  | case3 fuel t k hm ih =>
    simp only [collapseDotWsDotGo.eq_3, hm]
    exact List.mem_cons_self '.' _
  | case4 fuel t hm ih =>
    simp only [collapseDotWsDotGo.eq_3, hm]
    exact List.mem_cons_self '.' _
  | case5 fuel d t hcond ih =>
    rw [collapseDotWsDotGo.eq_4 fuel d t hcond]
    rcases List.mem_cons.mp hc with h | h
    · exact h ▸ List.mem_cons_self d _
    · exact List.mem_cons_of_mem d (ih h)

theorem mem_dropWhile_of_not {c : Char} {p : Char → Bool} {l : List Char} (hc : c ∈ l)
    (hp : p c = false) : c ∈ l.dropWhile p := by
  induction l with
  | nil => exact absurd hc (List.not_mem_nil c)
  | cons a t ih =>
    by_cases ha : p a
    · rw [List.dropWhile_cons_of_pos ha]
      rcases List.mem_cons.mp hc with h | h
      · rw [h] at hp
        rw [hp] at ha
        exact absurd ha (by simp)
      · exact ih h
    · rw [List.dropWhile_cons_of_neg ha]
      exact hc

theorem mem_trimList_of_not_ws {c : Char} {l : List Char} (hc : c ∈ l)
    (hws : isJsWS c = false) : c ∈ trimList l := by
  unfold trimList
  rw [List.mem_reverse]
  apply mem_dropWhile_of_not _ hws
  rw [List.mem_reverse]
  exact mem_dropWhile_of_not hc hws

/-! ## Pieces of splits: membership and separator-freedom (C1) -/

theorem splitRuns_ne_nil (sep : Char → Bool) (acc : List Char) (l : List Char) :
    splitRuns sep acc l ≠ [] := by
  induction l generalizing acc with
  | nil => simp [splitRuns.eq_1]
  | cons a t ih =>
    cases t with
    | nil =>
      rw [splitRuns.eq_2]
      split
      · simp
      · exact ih _
    | cons b t2 =>
      rw [splitRuns.eq_3]
      split
      · split
        · exact ih _
        · simp
      · exact ih _

theorem splitRuns_subset (sep : Char → Bool) (acc : List Char) (l : List Char) :
    ∀ w ∈ splitRuns sep acc l, ∀ c ∈ w, c ∈ acc ∨ c ∈ l := by
  induction l generalizing acc with
  | nil =>
    intro w hw c hc
    rw [splitRuns.eq_1] at hw
    simp at hw
    subst hw
    exact Or.inl (List.mem_reverse.mp hc)
  | cons a t ih =>
    intro w hw c hc
    cases t with
    | nil =>
      rw [splitRuns.eq_2] at hw
      split at hw
      · rcases List.mem_cons.mp hw with h | h
        · subst h
          exact Or.inl (List.mem_reverse.mp hc)
        · simp at h
          subst h
          exact absurd hc (List.not_mem_nil c)
      · rcases ih (a :: acc) w hw c hc with h | h
        · rcases List.mem_cons.mp h with h | h
          · exact Or.inr (h ▸ List.mem_cons_self c _)
          · exact Or.inl h
        · exact absurd h (List.not_mem_nil c)
    | cons b t2 =>
      rw [splitRuns.eq_3] at hw
      split at hw
      · split at hw
        · rcases ih acc w hw c hc with h | h
          · exact Or.inl h
          · exact Or.inr (List.mem_cons_of_mem a h)
        · rcases List.mem_cons.mp hw with h | h
          · subst h
            exact Or.inl (List.mem_reverse.mp hc)
          · rcases ih [] w h c hc with h2 | h2
            · exact absurd h2 (List.not_mem_nil c)
            · exact Or.inr (List.mem_cons_of_mem a h2)
      · rcases ih (a :: acc) w hw c hc with h | h
        · rcases List.mem_cons.mp h with h2 | h2
          · exact Or.inr (h2 ▸ List.mem_cons_self c _)
          · exact Or.inl h2
        · exact Or.inr (List.mem_cons_of_mem a h)

theorem splitRuns_no_sep (sep : Char → Bool) (acc : List Char) (l : List Char)
    (hacc : ∀ c ∈ acc, sep c = false) :
    ∀ w ∈ splitRuns sep acc l, ∀ c ∈ w, sep c = false := by
  induction l generalizing acc with
  | nil =>
    intro w hw c hc
    rw [splitRuns.eq_1] at hw
    simp at hw
    subst hw
    exact hacc c (List.mem_reverse.mp hc)
  | cons a t ih =>
    intro w hw c hc
    cases t with
    | nil =>
      rw [splitRuns.eq_2] at hw
      split at hw
      · rcases List.mem_cons.mp hw with h | h
        · subst h
          exact hacc c (List.mem_reverse.mp hc)
        · simp at h
          subst h
          exact absurd hc (List.not_mem_nil c)
      · rename_i ha
        refine ih (a :: acc) ?_ w hw c hc
        intro d hd
        rcases List.mem_cons.mp hd with h | h
        · subst h
          exact Bool.eq_false_iff.mpr ha
        · exact hacc d h
    | cons b t2 =>
      rw [splitRuns.eq_3] at hw
      split at hw
      · split at hw
        · exact ih acc hacc w hw c hc
        · rcases List.mem_cons.mp hw with h | h
          · subst h
            exact hacc c (List.mem_reverse.mp hc)
          · exact ih [] (by simp) w h c hc
      · rename_i ha
        refine ih (a :: acc) ?_ w hw c hc
        intro d hd
        rcases List.mem_cons.mp hd with h | h
        · subst h
          exact Bool.eq_false_iff.mpr ha
        · exact hacc d h

theorem mem_intersperse {sep x : List Char} :
    ∀ {xs : List (List Char)}, x ∈ xs.intersperse sep → x = sep ∨ x ∈ xs
  | [], h => absurd h (List.not_mem_nil x)
  | [a], h => by
    rw [List.intersperse_singleton] at h
    exact Or.inr h
  | a :: b :: t, h => by
    rw [List.intersperse_cons₂] at h
    rcases List.mem_cons.mp h with h | h
    · exact Or.inr (h ▸ List.mem_cons_self x _)
    · rcases List.mem_cons.mp h with h | h
      · exact Or.inl h
      · rcases mem_intersperse h with h | h
        · exact Or.inl h
        · exact Or.inr (List.mem_cons_of_mem a h)

theorem mem_intersperse_of_mem {sep x : List Char} :
    ∀ {xs : List (List Char)}, x ∈ xs → x ∈ xs.intersperse sep
  | [], h => absurd h (List.not_mem_nil x)
  | [a], h => by
    rw [List.intersperse_singleton]
    exact h
  | a :: b :: t, h => by
    rw [List.intersperse_cons₂]
    rcases List.mem_cons.mp h with h | h
    · exact h ▸ List.mem_cons_self x _
    · exact List.mem_cons_of_mem a (List.mem_cons_of_mem sep (mem_intersperse_of_mem h))

theorem mem_joinWords_inv {c : Char} {ws : List (List Char)} (h : c ∈ joinWords ws) :
    c = ' ' ∨ ∃ w ∈ ws, c ∈ w := by
  unfold joinWords List.intercalate at h
  obtain ⟨m, hm, hcm⟩ := List.mem_flatten.mp h
  rcases mem_intersperse hm with h2 | h2
  · subst h2
    simp at hcm
    exact Or.inl hcm
  · exact Or.inr ⟨m, h2, hcm⟩

theorem mem_joinWords_of {c : Char} {w : List Char} {ws : List (List Char)}
    (hw : w ∈ ws) (hc : c ∈ w) : c ∈ joinWords ws := by
  unfold joinWords List.intercalate
  exact List.mem_flatten.mpr ⟨w, mem_intersperse_of_mem hw, hc⟩

theorem dropWhile_head_false {p : Char → Bool} {l : List Char} {c : Char} {r : List Char}
    (h : l.dropWhile p = c :: r) : p c = false := by
  induction l with
  | nil => simp at h
  | cons a t ih =>
    by_cases ha : p a
    · rw [List.dropWhile_cons_of_pos ha] at h
      exact ih h
    · rw [List.dropWhile_cons_of_neg ha] at h
      injection h with h1 h2
      rw [← h1]
      exact Bool.eq_false_iff.mpr ha

theorem trimList_solid {l : List Char} (h : trimList l ≠ []) :
    ∃ c ∈ trimList l, isJsWS c = false := by
  rcases hv : (l.dropWhile isJsWS).reverse.dropWhile isJsWS with _ | ⟨d, r⟩
  · exfalso
    apply h
    unfold trimList
    rw [hv]
    rfl
  · refine ⟨d, ?_, dropWhile_head_false hv⟩
    unfold trimList
    rw [hv, List.mem_reverse]
    exact List.mem_cons_self d r

theorem splitWS_solid : ∀ {l : List Char}, (∃ c ∈ l, isJsWS c = false) →
    ∃ w ∈ (splitWS l).take 2, w ≠ []
  | [], h => by
    obtain ⟨c, hc, _⟩ := h
    exact absurd hc (List.not_mem_nil c)
  | a :: t, h => by
    by_cases ha : isJsWS a
    · cases t with
      | nil =>
        obtain ⟨c, hc, hw⟩ := h
        rcases List.mem_cons.mp hc with h2 | h2
        · rw [h2] at hw
          rw [hw] at ha
          exact absurd ha (by simp)
        · exact absurd h2 (List.not_mem_nil c)
      | cons b t2 =>
        have hsolid2 : ∃ c ∈ b :: t2, isJsWS c = false := by
          obtain ⟨c, hc, hw⟩ := h
          rcases List.mem_cons.mp hc with h2 | h2
          · rw [h2] at hw
            rw [hw] at ha
            exact absurd ha (by simp)
          · exact ⟨c, h2, hw⟩
        by_cases hb : isJsWS b
        · obtain ⟨w, hw, hne⟩ := splitWS_solid hsolid2
          refine ⟨w, ?_, hne⟩
          have : splitWS (a :: b :: t2) = splitWS (b :: t2) := by
            unfold splitWS
            rw [splitRuns.eq_3, if_pos ha, if_pos hb]
          rwa [this]
        · have hshape : splitWS (a :: b :: t2) = [] :: splitRuns isJsWS [] (b :: t2) := by
            unfold splitWS
            rw [splitRuns.eq_3, if_pos ha, if_neg hb]
            rfl
          have hhead : (splitRuns isJsWS [] (b :: t2)).headD [] =
              (b :: t2).takeWhile (fun c => !(isJsWS c)) := by
            have := splitRuns_headD isJsWS [] (b :: t2)
            simpa using this
          rcases hsp : splitRuns isJsWS [] (b :: t2) with _ | ⟨w1, rest⟩
          · exact absurd hsp (splitRuns_ne_nil _ _ _)
          · refine ⟨w1, ?_, ?_⟩
            · rw [hshape, hsp]
              simp
            · rw [hsp] at hhead
              simp only [List.headD_cons] at hhead
              have hb2 : isJsWS b = false := Bool.eq_false_iff.mpr hb
              rw [hhead, List.takeWhile_cons]
              simp [hb2]
    · refine ⟨(splitWS (a :: t)).headD [], ?_, ?_⟩
      · rcases hsp : splitWS (a :: t) with _ | ⟨w1, rest⟩
        · exact absurd hsp (splitRuns_ne_nil _ _ _)
        · simp
      · have hhead := splitRuns_headD isJsWS [] (a :: t)
        unfold splitWS
        rw [hhead]
        simp only [List.reverse_nil, List.nil_append]
        rw [List.takeWhile_cons]
        rw [if_pos (by simpa using ha)]
        simp

/-! ## Non-emptiness of sanitized output on benign input (C1) -/

theorem mem_ellipsisToPeriod_of_mem {c : Char} {l : List Char} (hc : c ∈ l) :
    (if c = '…' then '.' else c) ∈ ellipsisToPeriod l := by
  unfold ellipsisToPeriod
  exact List.mem_map_of_mem _ hc

theorem sanitize_ne_nil (l : List Char)
    (hsolid : ∃ c ∈ l, isJsWS c = false)
    (hsp : ∀ c ∈ l, c ≠ '<' ∧ c ≠ '>' ∧ c ≠ '&' ∧ c ≠ '[') :
    sanitizeCore l ≠ [] := by
  have hlt : '<' ∉ l := fun h => (hsp '<' h).1 rfl
  have hgt : '>' ∉ l := fun h => (hsp '>' h).2.1 rfl
  have hamp : '&' ∉ l := fun h => (hsp '&' h).2.2.1 rfl
  have hbr : '[' ∉ l := fun h => (hsp '[' h).2.2.2 rfl
  unfold sanitizeCore
  rw [decodeEntities_id hamp, removeAngles_id hlt hgt, normalizeQuotes_id,
    normalizeApostrophes_id]
  have hampE : '&' ∉ ellipsisToPeriod l := by
    intro h
    rcases mem_ellipsisToPeriod h with h | h
    · exact hamp h
    · simp at h
  have hbrE : '[' ∉ ellipsisToPeriod l := by
    intro h
    rcases mem_ellipsisToPeriod h with h | h
    · exact hbr h
    · simp at h
  have hampD : '&' ∉ collapseDots (ellipsisToPeriod l) := fun h => hampE (mem_collapseDots h)
  have hbrD : '[' ∉ collapseDots (ellipsisToPeriod l) := fun h => hbrE (mem_collapseDots h)
  rw [replaceNbsp_id hampD, removeRefMarkers_id hbrD]
  obtain ⟨c0, hc0, hw0⟩ := hsolid
  have hE : ∃ d ∈ collapseDots (ellipsisToPeriod l), isJsWS d = false := by
    by_cases hdot : c0 = '…'
    · refine ⟨'.', dot_mem_collapseDots ?_, by decide⟩
      have h2 := mem_ellipsisToPeriod_of_mem hc0
      rwa [if_pos hdot] at h2
    · by_cases hc0dot : c0 = '.'
      · refine ⟨'.', dot_mem_collapseDots ?_, by decide⟩
        have h2 := mem_ellipsisToPeriod_of_mem hc0
        rwa [if_neg hdot, hc0dot] at h2
      · refine ⟨c0, mem_collapseDots_of_ne_dot ?_ hc0dot, hw0⟩
        have h2 := mem_ellipsisToPeriod_of_mem hc0
        rwa [if_neg hdot] at h2
  obtain ⟨d, hd, hwd⟩ := hE
  have hW : d ∈ collapseWS (collapseDots (ellipsisToPeriod l)) :=
    mem_collapseWS_of_not_ws hd hwd
  have hX : ∃ f ∈ collapseDotWsDot (collapseWS (collapseDots (ellipsisToPeriod l))),
      isJsWS f = false := by
    by_cases hddot : d = '.'
    · exact ⟨'.', dot_mem_collapseDotWsDotGo (hddot ▸ hW), by decide⟩
    · exact ⟨d, mem_collapseDotWsDotGo_of hW hwd hddot, hwd⟩
  obtain ⟨f, hf, hwf⟩ := hX
  have hT := mem_trimList_of_not_ws hf hwf
  intro hnil
  rw [hnil] at hT
  exact absurd hT (List.not_mem_nil f)

theorem selectFromCleaned_ne_empty (cleaned : List Char) (qkw : List (List Char)) (mw nw : Nat)
    (hsolid : ∃ c ∈ cleaned, isJsWS c = false)
    (hsp : ∀ c ∈ cleaned, c ≠ '<' ∧ c ≠ '>' ∧ c ≠ '&' ∧ c ≠ '[')
    (hmw : 2 ≤ mw) :
    selectFromCleaned cleaned qkw mw nw ≠ "" := by
  obtain ⟨t, ht, hcase⟩ := selectFromCleaned_shape cleaned qkw mw nw
  rw [ht]
  intro he
  have hnil : sanitizeCore t = [] := congrArg String.data he
  rcases hcase with hmem | htrunc
  · unfold sentenceSplit at hmem
    obtain ⟨ht2, hne⟩ := List.mem_filter.mp hmem
    obtain ⟨p, hp, hpt⟩ := List.mem_map.mp ht2
    have hne2 : t ≠ [] := by simpa using hne
    refine (sanitize_ne_nil t ?_ ?_) hnil
    · rw [← hpt]
      exact trimList_solid (hpt ▸ hne2)
    · intro c hc
      have hcp : c ∈ p := mem_trimList (hpt ▸ hc)
      rcases splitRuns_subset isSentencePunct [] cleaned p hp c hcp with h | h
      · exact absurd h (List.not_mem_nil c)
      · exact hsp c h
  · subst htrunc
    refine (sanitize_ne_nil _ ?_ ?_) hnil
    · obtain ⟨w, hw2, hwne⟩ := splitWS_solid hsolid
      have hwtake : w ∈ (splitWS cleaned).take mw := by
        have h22 : (splitWS cleaned).take 2 = ((splitWS cleaned).take mw).take 2 := by
          rw [List.take_take, Nat.min_eq_left hmw]
        rw [h22] at hw2
        exact List.take_subset _ _ hw2
      obtain ⟨c, hc⟩ := List.exists_mem_of_ne_nil w hwne
      refine ⟨c, mem_joinWords_of hwtake hc, ?_⟩
      exact splitRuns_no_sep isJsWS [] cleaned (by simp) w
        (List.take_subset _ _ hwtake) c hc
    · intro c hc
      rcases mem_joinWords_inv hc with h | ⟨w, hw, hcw⟩
      · subst h
        refine ⟨by decide, by decide, by decide, by decide⟩
      · have hwall : w ∈ splitWS cleaned := List.take_subset _ _ hw
        rcases splitRuns_subset isJsWS [] cleaned w hwall c hcw with h | h
        · exact absurd h (List.not_mem_nil c)
        · exact hsp c h

/-- C1 counterexample: the snippet `"****\n."` is non-empty and contains a
sentence-terminal period, yet `selectFragment` returns the empty string — the
first newline block `"****"` cleans (bold-unwrapping) to the empty string and
every fallback then sanitizes an empty text. -/
theorem nonempty_guarantee_cex :
    "****\n." ≠ "" ∧ '.' ∈ "****\n.".data ∧
    extractTextFragment (.strArg "****\n.") ⟨none, none, none⟩ = "" :=
  ⟨by decide, by decide, by decide⟩

/-- C1 (amended): `selectFragment` is a total function (it never throws, being
modelled by total functions), and it returns a non-empty string whenever the
cleaned working block contains a non-whitespace character and none of the
characters `<`, `>`, `&`, `[` that sanitization can erase, provided the
effective maxWords bound is at least 2. Without those provisos the result can
be empty even for non-empty snippets with terminal punctuation. -/
theorem nonempty_guarantee_amended (s : String) (o : ExtractOptions)
    (hs : s ≠ "")
    (hsolid : ∃ c ∈ cleanSnippetCore (rawFirstBlock s.data), isJsWS c = false)
    (hsp : ∀ c ∈ cleanSnippetCore (rawFirstBlock s.data),
      c ≠ '<' ∧ c ≠ '>' ∧ c ≠ '&' ∧ c ≠ '[')
    (hmw : 2 ≤ effMaxWords o) :
    extractTextFragment (.strArg s) o ≠ "" := by
  rw [extract_strArg]
  unfold extractTextFragmentCore
  rw [if_neg hs]
  exact selectFromCleaned_ne_empty _ _ _ _ hsolid hsp hmw

/-- Witness for the amended C1 at a concrete snippet. -/
theorem nonempty_guarantee_amended_witness :
    extractTextFragment (.strArg "Hello world.") ⟨none, none, none⟩ ≠ "" :=
  nonempty_guarantee_amended "Hello world." ⟨none, none, none⟩
    (by decide) (by decide) (by decide) (by decide)

/-! ## Second-pass fixed point machinery (C3) -/

theorem ellipsis_not_mem_out (l : List Char) : '…' ∉ ellipsisToPeriod l := by
  intro h
  obtain ⟨d, _, he⟩ := List.mem_map.mp h
  by_cases hd : d = '…'
  · rw [if_pos hd] at he
    exact absurd he (by decide)
  · rw [if_neg hd] at he
    exact hd (he ▸ rfl)

theorem sanitizeCore_no_ellipsis (x : List Char) : '…' ∉ sanitizeCore x := by
  intro h
  unfold sanitizeCore at h
  have h1 := mem_trimList h
  have h2 := mem_collapseDotWsDotGo h1
  rcases mem_collapseWS h2 with h3 | h3
  · rcases mem_removeRefMarkersGo h3 with h4 | h4
    · rcases mem_replaceNbsp h4 with h5 | h5
      · exact ellipsis_not_mem_out _ (mem_collapseDots h5)
      · exact absurd h5 (by decide)
    · exact absurd h4 (by decide)
  · exact absurd h3 (by decide)

theorem hasDWD_dot_cons (t : List Char) :
    hasDWD ('.' :: t) = (((t.dropWhile isJsWS).head? = some '.') || hasDWD t) := rfl

theorem hasDWD_cons_of_ne {c : Char} (t : List Char) (h : c ≠ '.') :
    hasDWD (c :: t) = hasDWD t :=
  hasDWD.eq_3 c t h

theorem hasDWD_tail_false {c : Char} {t : List Char} (h : hasDWD (c :: t) = false) :
    hasDWD t = false := by
  by_cases hc : c = '.'
  · subst hc
    rw [hasDWD.eq_2, Bool.or_eq_false_iff] at h
    exact h.2
  · rwa [hasDWD.eq_3 c t hc] at h

theorem collapseDots_id_of_no_dwd {l : List Char} (h : hasDWD l = false) :
    collapseDots l = l := by
  induction l using collapseDots.induct with
  | case1 => rw [collapseDots.eq_1]
  | case2 t ih =>
    exfalso
    rw [hasDWD.eq_2] at h
    simp only [Bool.or_eq_false_iff] at h
    have := h.1
    rw [List.dropWhile_cons_of_neg (by decide)] at this
    simp at this
  | case3 c t hcond ih =>
    rw [collapseDots.eq_3 c t hcond, ih (hasDWD_tail_false h)]

theorem matchDotWsDot_none_of_no_head {t : List Char}
    (h : ¬ ((t.dropWhile isJsWS).head? = some '.')) : matchDotWsDot t = none := by
  simp only [matchDotWsDot]
  split
  · rename_i rest heq
    exfalso
    apply h
    rw [← drop_length_takeWhile isJsWS t, heq]
    rfl
  · rfl

theorem collapseDotWsDot_id_of_no_dwd {fuel : Nat} {l : List Char} (h : hasDWD l = false) :
    collapseDotWsDotGo fuel l = l := by
  induction fuel, l using collapseDotWsDotGo.induct with
  | case1 l => rw [collapseDotWsDotGo.eq_1]
  | case2 t ht => rw [collapseDotWsDotGo.eq_2 _ ht]
  | case3 fuel t k hm ih =>
    exfalso
    rw [hasDWD.eq_2, Bool.or_eq_false_iff] at h
    obtain ⟨ws, rest, hts, hwsall, hdrop⟩ := matchDotWsDot_decomp hm
    have := h.1
    rw [hts] at this
    simp only [decide_eq_false_iff_not] at this
    apply this
    have hdw : (ws ++ '.' :: rest).dropWhile isJsWS = '.' :: rest := by
      rw [List.dropWhile_append]
      simp only [List.dropWhile_eq_nil_iff.mpr (fun x hx => hwsall x hx)]
      simp [List.dropWhile_cons_of_neg (by decide : ¬ isJsWS '.' = true)]
    rw [hdw]
    rfl
  | case4 fuel t hm ih =>
    rw [collapseDotWsDotGo.eq_3, hm]
    rw [ih (hasDWD_tail_false h)]
  | case5 fuel c t hcond ih =>
    rw [collapseDotWsDotGo.eq_4 fuel c t hcond, ih (hasDWD_tail_false h)]

theorem wsNorm_tail {c : Char} {t : List Char} (h : wsNorm (c :: t) = true) :
    wsNorm t = true := by
  rw [wsNorm.eq_2, Bool.and_eq_true] at h
  exact h.2

theorem wsNorm_head {c : Char} {t : List Char} (h : wsNorm (c :: t) = true)
    (hws : isJsWS c = true) :
    c = ' ' ∧ ∀ d, t.head? = some d → isJsWS d = false := by
  rw [wsNorm.eq_2, Bool.and_eq_true, Bool.or_eq_true] at h
  rcases h.1 with h1 | h1
  · rw [hws] at h1
    exact absurd h1 (by decide)
  · rw [Bool.and_eq_true] at h1
    refine ⟨by simpa using h1.1, ?_⟩
    intro d hd
    have := h1.2
    rw [hd] at this
    simpa using this

theorem wsNorm_drop {l : List Char} (h : wsNorm l = true) (n : Nat) :
    wsNorm (l.drop n) = true := by
  induction l generalizing n with
  | nil => simpa using h
  | cons c t ih =>
    cases n with
    | zero => exact h
    | succ m => exact ih (wsNorm_tail h) m

theorem head?_collapseDotWsDotGo (fuel : Nat) (l : List Char) :
    (collapseDotWsDotGo fuel l).head? = l.head? := by
  induction fuel, l using collapseDotWsDotGo.induct with
  | case1 l => rw [collapseDotWsDotGo.eq_1]
  | case2 t ht => rw [collapseDotWsDotGo.eq_2 _ ht]
  | case3 fuel t k hm ih =>
    rw [collapseDotWsDotGo.eq_3, hm]
    rfl
  | case4 fuel t hm ih =>
    rw [collapseDotWsDotGo.eq_3, hm]
    rfl
  | case5 fuel c t hcond ih =>
    rw [collapseDotWsDotGo.eq_4 fuel c t hcond]
    rfl

theorem wsNorm_collapseWS (l : List Char) : wsNorm (collapseWS l) = true := by
  induction l using collapseWS.induct with
  | case1 => rw [collapseWS.eq_1, wsNorm.eq_1]
  | case2 b hb =>
    rw [collapseWS.eq_2, if_pos hb]
    decide
  | case3 b hb d t2 hd ih =>
    rw [collapseWS.eq_3, if_pos hb, if_pos hd]
    exact ih
  | case4 b hb d t2 hd ih =>
    rw [collapseWS.eq_3, if_pos hb, if_neg hd]
    rw [wsNorm.eq_2, Bool.and_eq_true]
    refine ⟨?_, ih⟩
    rw [collapseWS_cons_nonws t2 hd]
    simp [Bool.eq_false_iff.mpr hd]
  | case5 b t2 hb ih =>
    rw [collapseWS_cons_nonws t2 hb]
    rw [wsNorm.eq_2, Bool.and_eq_true]
    refine ⟨?_, ih⟩
    simp [Bool.eq_false_iff.mpr hb]

theorem collapseWS_id_of_wsNorm {l : List Char} (h : wsNorm l = true) :
    collapseWS l = l := by
  induction l using collapseWS.induct with
  | case1 => rw [collapseWS.eq_1]
  | case2 b hb =>
    rw [collapseWS.eq_2, if_pos hb]
    obtain ⟨hsp, _⟩ := wsNorm_head h hb
    rw [hsp]
  | case3 b hb d t2 hd ih =>
    exfalso
    obtain ⟨_, hnext⟩ := wsNorm_head h hb
    have := hnext d rfl
    rw [hd] at this
    exact absurd this (by decide)
  | case4 b hb d t2 hd ih =>
    rw [collapseWS.eq_3, if_pos hb, if_neg hd]
    obtain ⟨hsp, _⟩ := wsNorm_head h hb
    rw [← hsp, ih (wsNorm_tail h)]
  | case5 b t2 hb ih =>
    rw [collapseWS_cons_nonws t2 hb, ih (wsNorm_tail h)]

theorem wsNorm_collapseDotWsDotGo {fuel : Nat} {l : List Char} (h : wsNorm l = true) :
    wsNorm (collapseDotWsDotGo fuel l) = true := by
  induction fuel, l using collapseDotWsDotGo.induct with
  | case1 l => rwa [collapseDotWsDotGo.eq_1]
  | case2 t ht => rwa [collapseDotWsDotGo.eq_2 _ ht]
  | case3 fuel t k hm ih =>
    rw [collapseDotWsDotGo.eq_3, hm]
    show wsNorm ('.' :: collapseDotWsDotGo fuel (t.drop k)) = true
    rw [wsNorm.eq_2, Bool.and_eq_true, Bool.or_eq_true]
    exact ⟨Or.inl (by decide), ih (wsNorm_drop (wsNorm_tail h) k)⟩
  | case4 fuel t hm ih =>
    rw [collapseDotWsDotGo.eq_3, hm]
    show wsNorm ('.' :: collapseDotWsDotGo fuel t) = true
    rw [wsNorm.eq_2, Bool.and_eq_true, Bool.or_eq_true]
    exact ⟨Or.inl (by decide), ih (wsNorm_tail h)⟩
  | case5 fuel c t hcond ih =>
    rw [collapseDotWsDotGo.eq_4 fuel c t hcond]
    rw [wsNorm.eq_2, Bool.and_eq_true]
    refine ⟨?_, ih (wsNorm_tail h)⟩
    by_cases hc : isJsWS c
    · obtain ⟨hsp, hnext⟩ := wsNorm_head h hc
      rw [head?_collapseDotWsDotGo]
      rw [wsNorm.eq_2, Bool.and_eq_true] at h
      exact h.1
    · simp [Bool.eq_false_iff.mpr hc]

theorem wsNorm_append_right {u y : List Char} (h : wsNorm (u ++ y) = true) :
    wsNorm u = true := by
  induction u with
  | nil => rw [wsNorm.eq_1]
  | cons c u2 ih =>
    rw [List.cons_append] at h
    rw [wsNorm.eq_2, Bool.and_eq_true]
    refine ⟨?_, ih (wsNorm_tail h)⟩
    rw [wsNorm.eq_2, Bool.and_eq_true] at h
    have h1 := h.1
    cases u2 with
    | nil =>
      rw [Bool.or_eq_true] at h1 ⊢
      rcases h1 with h1 | h1
      · exact Or.inl h1
      · right
        rw [Bool.and_eq_true] at h1 ⊢
        exact ⟨h1.1, by rfl⟩
    | cons d u3 => exact h1
  
theorem wsNorm_append_left {x t : List Char} (h : wsNorm (x ++ t) = true) :
    wsNorm t = true := by
  induction x with
  | nil => exact h
  | cons c x2 ih =>
    rw [List.cons_append] at h
    exact ih (wsNorm_tail h)

theorem trimList_decomp (l : List Char) : ∃ x y, l = x ++ trimList l ++ y := by
  have h2 : (l.dropWhile isJsWS).reverse =
      (l.dropWhile isJsWS).reverse.takeWhile isJsWS ++
        (l.dropWhile isJsWS).reverse.dropWhile isJsWS :=
    (List.takeWhile_append_dropWhile isJsWS _).symm
  have h3 : l.dropWhile isJsWS =
      trimList l ++ ((l.dropWhile isJsWS).reverse.takeWhile isJsWS).reverse := by
    calc l.dropWhile isJsWS
        = ((l.dropWhile isJsWS).reverse).reverse := (List.reverse_reverse _).symm
      _ = ((l.dropWhile isJsWS).reverse.takeWhile isJsWS ++
            (l.dropWhile isJsWS).reverse.dropWhile isJsWS).reverse :=
          congrArg List.reverse h2
      _ = trimList l ++ ((l.dropWhile isJsWS).reverse.takeWhile isJsWS).reverse := by
          rw [List.reverse_append]
          rfl
  refine ⟨l.takeWhile isJsWS, ((l.dropWhile isJsWS).reverse.takeWhile isJsWS).reverse, ?_⟩
  conv_lhs => rw [← List.takeWhile_append_dropWhile isJsWS l]
  conv_lhs => rw [h3]
  rw [List.append_assoc]

theorem wsNorm_trimList {l : List Char} (h : wsNorm l = true) :
    wsNorm (trimList l) = true := by
  obtain ⟨x, y, hd⟩ := trimList_decomp l
  rw [hd, List.append_assoc] at h
  exact wsNorm_append_right (wsNorm_append_left h)

theorem head?_dropWhile_not {p : Char → Bool} {l : List Char} {c : Char}
    (h : (l.dropWhile p).head? = some c) : p c = false := by
  rcases hd : l.dropWhile p with _ | ⟨d, r⟩
  · rw [hd] at h
    simp at h
  · rw [hd] at h
    simp only [List.head?_cons, Option.some.injEq] at h
    exact h ▸ dropWhile_head_false hd

theorem dropWhile_eq_self_of_head {p : Char → Bool} {l : List Char}
    (h : ∀ c, l.head? = some c → p c = false) : l.dropWhile p = l := by
  cases l with
  | nil => rfl
  | cons a t =>
    rw [List.dropWhile_cons_of_neg]
    rw [h a rfl]
    simp

theorem getLast?_dropWhile_of_ne_nil {p : Char → Bool} {l : List Char}
    (h : l.dropWhile p ≠ []) : (l.dropWhile p).getLast? = l.getLast? := by
  obtain ⟨x, hx⟩ := (List.dropWhile_suffix p : l.dropWhile p <:+ l)
  conv_rhs => rw [← hx]
  exact (List.getLast?_append_of_ne_nil x h).symm

theorem head?_trimList_not_ws {l : List Char} {c : Char}
    (h : (trimList l).head? = some c) : isJsWS c = false := by
  unfold trimList at h
  rw [List.head?_reverse] at h
  have hne : (l.dropWhile isJsWS).reverse.dropWhile isJsWS ≠ [] := by
    intro hnil
    rw [hnil] at h
    simp at h
  rw [getLast?_dropWhile_of_ne_nil hne, List.getLast?_reverse] at h
  exact head?_dropWhile_not h

theorem getLast?_trimList_not_ws {l : List Char} {c : Char}
    (h : (trimList l).getLast? = some c) : isJsWS c = false := by
  unfold trimList at h
  rw [List.getLast?_reverse] at h
  exact head?_dropWhile_not h

theorem trimList_trimList (l : List Char) : trimList (trimList l) = trimList l := by
  have h1 : (trimList l).dropWhile isJsWS = trimList l :=
    dropWhile_eq_self_of_head (fun c hc => head?_trimList_not_ws hc)
  have h2 : (trimList l).reverse.dropWhile isJsWS = (trimList l).reverse :=
    dropWhile_eq_self_of_head (fun c hc => by
      rw [List.head?_reverse] at hc
      exact getLast?_trimList_not_ws hc)
  show ((((trimList l).dropWhile isJsWS).reverse).dropWhile isJsWS).reverse = trimList l
  rw [h1, h2, List.reverse_reverse]

theorem collapseDotWsDot_id {l : List Char} (h : hasDWD l = false) :
    collapseDotWsDot l = l :=
  collapseDotWsDot_id_of_no_dwd h

theorem sanitizeFragment_def (s : String) : sanitizeFragment s = ⟨sanitizeCore s.data⟩ :=
  rfl

theorem string_data_mk (l : List Char) : (⟨l⟩ : String).data = l :=
  rfl

theorem sanitizeCore_fixed (x : List Char)
    (hamp : '&' ∉ sanitizeCore x) (hbr : '[' ∉ sanitizeCore x)
    (hdwd : hasDWD (sanitizeCore x) = false) :
    sanitizeCore (sanitizeCore x) = sanitizeCore x := by
  have hlt := (sanitizeCore_no_angle x).1
  have hgt := (sanitizeCore_no_angle x).2
  have hell := sanitizeCore_no_ellipsis x
  have hwsn : wsNorm (sanitizeCore x) = true :=
    wsNorm_trimList (wsNorm_collapseDotWsDotGo (wsNorm_collapseWS _))
  have htrim : trimList (sanitizeCore x) = sanitizeCore x := trimList_trimList _
  show trimList (collapseDotWsDot (collapseWS (removeRefMarkers (replaceNbsp
    (collapseDots (ellipsisToPeriod (normalizeApostrophes (normalizeQuotes
      (removeAngles (decodeEntities (sanitizeCore x))))))))))) = sanitizeCore x
  rw [decodeEntities_id hamp, removeAngles_id hlt hgt, normalizeQuotes_id,
    normalizeApostrophes_id, ellipsisToPeriod_id hell,
    collapseDots_id_of_no_dwd hdwd, replaceNbsp_id hamp, removeRefMarkers_id hbr,
    collapseWS_id_of_wsNorm hwsn, collapseDotWsDot_id hdwd, htrim]

/-- C3 counterexample: `sanitizeFragment` is not idempotent — on `". . . ."`
the global non-overlapping `/\.\s*\./` replacement leaves `". ."`, which a
second application collapses further to `"."`. -/
theorem sanitize_idempotence_cex :
    sanitizeFragment (sanitizeFragment ". . . .") ≠ sanitizeFragment ". . . ." ∧
    sanitizeFragment ". . . ." = ". ." ∧
    sanitizeFragment ". ." = "." :=
  ⟨by decide, by decide, by decide⟩

/-- C3 (amended): `sanitizeFragment s` is a fixed point of `sanitizeFragment`
whenever its output contains no ampersand (no re-decodable entity and no
`&nbsp;`), no `[` (no reference marker), and no two periods separated only by
whitespace (no residual `/\.\s*\./` match). In general the function is not
idempotent. -/
theorem sanitize_idempotent_amended (s : String)
    (hamp : '&' ∉ (sanitizeFragment s).data)
    (hbr : '[' ∉ (sanitizeFragment s).data)
    (hdwd : hasDWD (sanitizeFragment s).data = false) :
    sanitizeFragment (sanitizeFragment s) = sanitizeFragment s := by
  rw [sanitizeFragment_def s, string_data_mk] at hamp hbr hdwd
  rw [sanitizeFragment_def (sanitizeFragment s), sanitizeFragment_def s, string_data_mk]
  exact congrArg String.mk (sanitizeCore_fixed s.data hamp hbr hdwd)

/-- Witness for the amended C3 at a concrete string. -/
theorem sanitize_idempotent_amended_witness :
    sanitizeFragment (sanitizeFragment "hello world.") = sanitizeFragment "hello world." :=
  sanitize_idempotent_amended "hello world." (by decide) (by decide) (by decide)
